import Mathlib

/-!
# World Color Survey helpers: a verification development

Shallow embedding of the data-munging code in `wcsHelper.py` and
`wcs_table_helper.py`.

Modelling conventions:
* an input line of a tab-separated file is modelled after splitting, as the
  list of its field strings (`List String`);
* a Python `dict` is modelled as an association list in insertion order:
  assignment to an existing key updates the value in place, assignment to a
  new key appends it at the end, exactly as CPython dicts behave;
* Python exceptions (`ValueError` from `int()`/`float()`/`list.index`,
  `KeyError`, tuple-unpacking `TypeError`/`ValueError`, `IndexError`) are
  modelled by `Option`, `none` being the raised exception;
* Python float arithmetic is modelled over `ℚ`.
-/

set_option synthInstance.maxSize 1000
set_option maxRecDepth 10000

namespace WCS

/-- Model of a Python `dict`: an association list in insertion order. -/
abbrev Dict (κ ν : Type _) := List (κ × ν)

/-- First-match lookup, the model of `d[k]` (as an `Option`) and `d.get(k)`. -/
def alookup {κ ν : Type _} [DecidableEq κ] (k : κ) : Dict κ ν → Option ν
  | [] => none
  | (k', v) :: d => if k' = k then some v else alookup k d

/-- Model of the statement `d[k] = v`: update in place if the key is
present, else append at the end (CPython dict insertion-order semantics). -/
def upsert {κ ν : Type _} [DecidableEq κ] (k : κ) (v : ν) : Dict κ ν → Dict κ ν
  | [] => [(k, v)]
  | (k', v') :: d => if k' = k then (k', v) :: d else (k', v') :: upsert k v d

/-- The keys of a dict, in iteration order. -/
def keysOf {κ ν : Type _} (d : Dict κ ν) : List κ := d.map Prod.fst

/-- Numeric value of a list of decimal digit characters. -/
def digitsVal (l : List Char) : Nat :=
  l.foldl (fun acc c => 10 * acc + (c.toNat - 48)) 0

/-- Model of Python `int(s)` on the shapes of input this code meets: an
optional minus sign followed by one or more decimal digits succeeds, any
other string raises `ValueError` (modelled as `none`). -/
def pyInt (s : String) : Option Int :=
  match s.toList with
  | [] => none
  | '-' :: rest =>
    if rest ≠ [] ∧ rest.all (·.isDigit) then some (-(digitsVal rest : Int)) else none
  | l => if l.all (·.isDigit) then some ((digitsVal l : Int)) else none

/-- Helper for `pyFloat`: parse an unsigned decimal literal
(digits, optionally a dot and fractional digits). -/
def pyFloatCore (l : List Char) : Option ℚ :=
  let intPart := l.takeWhile (·.isDigit)
  let rest := l.dropWhile (·.isDigit)
  match rest with
  | [] => if intPart = [] then none else some ((digitsVal intPart : ℚ))
  | '.' :: frac =>
    if frac.all (·.isDigit) ∧ (intPart ≠ [] ∨ frac ≠ []) then
      some ((digitsVal intPart : ℚ) + (digitsVal frac : ℚ) / (10 : ℚ) ^ frac.length)
    else none
  | _ => none

/-- Model of Python `float(s)` on plain decimal literals (optional sign,
digits, optional fractional part), the only shapes occurring in WCS chip
files; anything else raises `ValueError`, modelled as `none`. The value is
modelled in `ℚ`. -/
def pyFloat (s : String) : Option ℚ :=
  match s.toList with
  | '-' :: rest => (pyFloatCore rest).map (fun q => -q)
  | l => pyFloatCore l

/-- Model of the unpacking `L, H = vals[-2:]`: succeeds exactly when the
list has at least two elements (otherwise the slice is too short and the
unpacking raises `ValueError`), returning the last two elements. -/
def lastTwo : List String → Option (String × String)
  | l =>
    match l.reverse with
    | h :: s :: _ => some (s, h)
    | _ => none

/-! ## Chip table parser (`_get_munsell_dicts`, `_get_clab_dict`, `_get_rgb_dict`) -/

/-- The parsing performed on one line by `_get_munsell_dicts`
(`wcsHelper.py` lines 37-46): `index = int(vals[0])`, `L, H = vals[-2:]`,
and the hue conversion `int(H)` used for the chip-to-Munsell entry.
Returns `(index, L, H, int H)`. -/
def parseMunsellFields (fields : List String) : Option (Int × String × String × Int) := do
  let f0 ← fields.head?
  let i ← pyInt f0
  let (L, H) ← lastTwo fields
  let h ← pyInt H
  some (i, L, H, h)

/-- The two dictionary assignments performed on one line by
`_get_munsell_dicts`: `munsell_to_chip[L+H] = index` and
`chip_to_munsell[index] = (L, int(H))`. -/
def munsellInsert (acc : Dict String Int × Dict Int (String × Int))
    (e : Int × String × String × Int) :
    Dict String Int × Dict Int (String × Int) :=
  (upsert (e.2.1 ++ e.2.2.1) e.1 acc.1, upsert e.1 (e.2.1, e.2.2.2) acc.2)

/-- `_get_munsell_dicts` from `wcsHelper.py` (lines 30-48), over the
already-split lines. -/
def get_munsell_dicts (lines : List (List String)) :
    Option (Dict String Int × Dict Int (String × Int)) :=
  lines.foldlM (fun acc fields => (parseMunsellFields fields).map (munsellInsert acc)) ([], [])

/-- The parsing performed on one line by `_get_clab_dict` (`wcsHelper.py`
lines 56-61): `index = int(vals[0])` and `[float(v) for v in vals[4:7]]`.
Note the slice silently truncates on short lines. -/
def parseClabFields (fields : List String) : Option (Int × List ℚ) := do
  let f0 ← fields.head?
  let i ← pyInt f0
  let clab ← ((fields.drop 4).take 3).mapM pyFloat
  some (i, clab)

/-- `_get_clab_dict` from `wcsHelper.py` (lines 50-65), over the
already-split lines. -/
def get_clab_dict (lines : List (List String)) : Option (Dict Int (List ℚ)) :=
  lines.foldlM (fun acc fields => (parseClabFields fields).map (fun e => upsert e.1 e.2 acc)) []

/-- The parsing performed on one line by `_get_rgb_dict` (`wcsHelper.py`
lines 73-78): `index = int(vals[0])` and `[int(v) for v in vals[1:4]]`.
Note the slice silently truncates on short lines. -/
def parseRgbFields (fields : List String) : Option (Int × List Int) := do
  let f0 ← fields.head?
  let i ← pyInt f0
  let rgb ← ((fields.drop 1).take 3).mapM pyInt
  some (i, rgb)

/-- `_get_rgb_dict` from `wcsHelper.py` (lines 67-82), over the
already-split lines. -/
def get_rgb_dict (lines : List (List String)) : Option (Dict Int (List Int)) :=
  lines.foldlM (fun acc fields => (parseRgbFields fields).map (fun e => upsert e.1 e.2 acc)) []

/-- The dictionary branch of `readChipData` (`wcsHelper.py` lines 120-133):
runs the three per-line parsers over the same lines and returns the four
dictionaries. -/
def readChipDicts (lines : List (List String)) :
    Option (Dict String Int × Dict Int (String × Int) × Dict Int (List ℚ) × Dict Int (List Int)) := do
  let m ← get_munsell_dicts lines
  let c ← get_clab_dict lines
  let r ← get_rgb_dict lines
  some (m.1, m.2, c, r)

/-! ## Naming data (`readNamingData`) -/

/-- Nested naming dictionary: language → speaker → chip → term. -/
abbrev NamingData := Dict Int (Dict Int (Dict Int String))

/-- The parsing performed on one line by `readNamingData` (`wcsHelper.py`
lines 245-259): the unpacking `[lang, spkr, chipNum, term] = l.split('\t')`
(exactly four fields, else `ValueError`) and the three `int` conversions. -/
def parseNamingFields : List String → Option (Int × Int × Int × String)
  | [lang, spkr, chipNum, term] => do
    let la ← pyInt lang
    let sp ← pyInt spkr
    let ch ← pyInt chipNum
    some (la, sp, ch, term)
  | _ => none

/-- The nested-dictionary update performed on one line by `readNamingData`:
create the language and speaker sub-dicts if absent, then
`spkrDict[int(chipNum)] = term`. -/
def insertNaming (nd : NamingData) (e : Int × Int × Int × String) : NamingData :=
  let ld := (alookup e.1 nd).getD []
  let sd := (alookup e.2.1 ld).getD []
  upsert e.1 (upsert e.2.1 (upsert e.2.2.1 e.2.2.2 sd) ld) nd

/-- The dictionary branch of `readNamingData` (`wcsHelper.py`
lines 240-261), over the already-split lines. -/
def readNamingData (lines : List (List String)) : Option NamingData :=
  lines.foldlM (fun nd fields => (parseNamingFields fields).map (insertNaming nd)) []

/-- Three-level lookup in the nested naming dictionary. -/
def lookupNaming (nd : NamingData) (la sp ch : Int) : Option String :=
  alookup ch ((alookup sp ((alookup la nd).getD [])).getD [])

/-- Number of (language, speaker, chip) leaf entries of the nested naming
dictionary. -/
def leafCount (nd : NamingData) : Nat :=
  (nd.map (fun p => (p.2.map (fun q => q.2.length)).sum)).sum

/-- The (language, speaker, chip) key triple of a parsed naming line. -/
def tripleOf (e : Int × Int × Int × String) : Int × Int × Int :=
  (e.1, e.2.1, e.2.2.1)

/-- The term of the last input line carrying a given key triple, if any. -/
def lastTerm (entries : List (Int × Int × Int × String)) (tr : Int × Int × Int) :
    Option String :=
  ((entries.filter (fun e => tripleOf e = tr)).getLast?).map (fun e => e.2.2.2)

/-! ## Foci data (`readFociData`) -/

/-- Nested foci dictionary: language → speaker → term → list of foci
coordinate strings. -/
abbrev FociData := Dict Int (Dict Int (Dict String (List String)))

/-- The sequential reassignments `if foci[0] == 'A': foci = 'A0'` and
`if foci[0] == 'J': foci = 'J0'` of `readFociData` (`wcsHelper.py`
lines 326-329), written as the value the two conditionals leave in
`foci`. -/
def fociCollapse (foci : String) : String :=
  if (if foci.front = 'A' then "A0" else foci).front = 'J' then "J0"
  else (if foci.front = 'A' then "A0" else foci)

/-- The foci coordinate normalization inlined in the loop of
`readFociData` (`wcsHelper.py` lines 325-332): collapse a coordinate whose
first character is `A` or `J` to `A0`/`J0`, then insert a colon after the
first character. `foci[0]` on an empty string raises `IndexError`,
modelled as `none`. -/
def normFoci (foci : String) : Option String :=
  if foci = "" then none
  else some (String.singleton (fociCollapse foci).front ++ ":" ++ (fociCollapse foci).drop 1)

/-- The per-line parsing of `readFociData` (`wcsHelper.py` lines 310-332):
the unpacking `[lang, spkr, _, term, foci] = l.split('\t')` (exactly five
fields), the two `int` conversions, and the coordinate normalization
(the `TermNum` field is parsed out but discarded). -/
def parseFociFields : List String → Option (Int × Int × String × String)
  | [lang, spkr, _, term, foci] => do
    let la ← pyInt lang
    let sp ← pyInt spkr
    let nf ← normFoci foci
    some (la, sp, term, nf)
  | _ => none

/-- The nested-dictionary update of `readFociData`: create the language,
speaker and term sub-structures if absent, then append the normalized
coordinate to the per-term list. -/
def insertFoci (fd : FociData) (e : Int × Int × String × String) : FociData :=
  let ld := (alookup e.1 fd).getD []
  let sd := (alookup e.2.1 ld).getD []
  let cur := (alookup e.2.2.1 sd).getD []
  upsert e.1 (upsert e.2.1 (upsert e.2.2.1 (cur ++ [e.2.2.2]) sd) ld) fd

/-- The loop body of `readFociData` for one line. -/
def fociStep (fd : FociData) (fields : List String) : Option FociData :=
  (parseFociFields fields).map (insertFoci fd)

/-- The dictionary branch of `readFociData` (`wcsHelper.py`
lines 303-336), over the already-split lines. -/
def readFociData (lines : List (List String)) : Option FociData :=
  lines.foldlM fociStep []

/-- Three-level lookup in the nested foci dictionary. -/
def lookupFoci (fd : FociData) (la sp : Int) (term : String) : Option (List String) :=
  alookup term ((alookup sp ((alookup la fd).getD [])).getD [])

/-! ## Speaker data (`readSpeakerData`) and its table (`loadSpeakerTable`) -/

/-- An atomic Python value: an integer or a string. The values flowing
through the speaker pipeline (ages, genders, and the characters obtained
by indexing a string) are all atomic. -/
inductive PyAtom where
  | int (n : Int)
  | str (s : String)
deriving DecidableEq

/-- A fragment of Python runtime values, enough to model the dynamically
typed value stored per speaker (`(int(age), gender)`, a flat tuple of
atoms) and the operations `loadSpeakerTable` applies to it. -/
inductive PyVal where
  | atom (a : PyAtom)
  | tup (elems : List PyAtom)
deriving DecidableEq

/-- Shorthand for an integer value. -/
def PyVal.int (n : Int) : PyVal := .atom (.int n)

/-- Shorthand for a string value. -/
def PyVal.str (s : String) : PyVal := .atom (.str s)

/-- Model of Python subscription `v[i]` for a nonnegative index: defined on
tuples and strings, a `TypeError` (modelled `none`) on integers. -/
def pyIndex (v : PyVal) (i : Nat) : Option PyVal :=
  match v with
  | .tup elems => (elems.get? i).map PyVal.atom
  | .atom (.str s) => (s.toList.get? i).map (fun c => PyVal.str (String.singleton c))
  | .atom (.int _) => none

/-- Model of the unpacking `a, g = v`: succeeds on a 2-tuple or a 2-character
string, raises (`TypeError` on a non-iterable, `ValueError` on a wrong
length) otherwise. -/
def pyUnpack2 (v : PyVal) : Option (PyVal × PyVal) :=
  match v with
  | .tup [a, b] => some (PyVal.atom a, PyVal.atom b)
  | .atom (.str s) =>
    match s.toList with
    | [a, b] => some (PyVal.str (String.singleton a), PyVal.str (String.singleton b))
    | _ => none
  | .atom (.int _) => none
  | .tup _ => none

/-- Speaker dictionary: language → speaker → Python value
`(int(age), gender)`. -/
abbrev SpeakerData := Dict Int (Dict Int PyVal)

/-- The per-line parsing of `readSpeakerData` (`wcsHelper.py`
lines 370-379): the unpacking `[lang, spkr, age, gender] = l.split('\t')`
(exactly four fields) and the three `int` conversions; the stored value is
the tuple `(int(age), gender)`. -/
def parseSpeakerFields : List String → Option (Int × Int × PyVal)
  | [lang, spkr, age, gender] => do
    let la ← pyInt lang
    let sp ← pyInt spkr
    let ag ← pyInt age
    some (la, sp, PyVal.tup [PyAtom.int ag, PyAtom.str gender])
  | _ => none

/-- The nested-dictionary update of `readSpeakerData`. -/
def insertSpeaker (sd : SpeakerData) (e : Int × Int × PyVal) : SpeakerData :=
  let ld := (alookup e.1 sd).getD []
  upsert e.1 (upsert e.2.1 e.2.2 ld) sd

/-- The dictionary branch of `readSpeakerData` (`wcsHelper.py`
lines 366-381), over the already-split lines. -/
def readSpeakerData (lines : List (List String)) : Option SpeakerData :=
  lines.foldlM (fun sd fields => (parseSpeakerFields fields).map (insertSpeaker sd)) []

/-- The speaker table of `loadSpeakerTable`: the four column lists the
function accumulates before building the datascience `Table`. -/
structure SpeakerTable where
  language : List Int
  speaker : List Int
  age : List PyVal
  gender : List PyVal
deriving DecidableEq

/-- `loadSpeakerTable` from `wcs_table_helper.py` (lines 178-210): loops
over languages and speakers and executes
`a, g = speakerData[lang][spkr][0]` for each, i.e. subscripts the stored
value with `[0]` and unpacks the result into the age and gender columns. -/
def loadSpeakerTable (sd : SpeakerData) : Option SpeakerTable :=
  sd.foldlM
    (fun t p =>
      p.2.foldlM
        (fun t q => do
          let v0 ← pyIndex q.2 0
          let (a, g) ← pyUnpack2 v0
          some { t with
                   language := t.language ++ [p.1]
                   speaker := t.speaker ++ [q.1]
                   age := t.age ++ [a]
                   gender := t.gender ++ [g] })
        t)
    ⟨[], [], [], []⟩

/-! ## Mode maps (`makeModeMap` / `findMode`) -/

/-- The loop body of the frequency count of `findMode` (`wcsHelper.py`
line 428): `freq[i] = freq.get(i, 0) + 1`. -/
def freqStep (freq : Dict String Nat) (t : String) : Dict String Nat :=
  upsert t ((alookup t freq).getD 0 + 1) freq

/-- The frequency dictionary built by `findMode` (`wcsHelper.py`
lines 427-428): `for i in aList: freq[i] = freq.get(i, 0) + 1`, in CPython
dict insertion order (a term keeps its slot, a new term is appended). -/
def buildFreq (aList : List String) : Dict String Nat :=
  aList.foldl freqStep []

/-- Stable insertion used to model Python's `sorted(..., reverse=True)`:
puts `x` before the first element whose key is not larger, so that among
equal keys an element of the original list placed later never overtakes
an earlier one. -/
def insertDescBy (c : String → Nat) (x : String) : List String → List String
  | [] => [x]
  | y :: ys => if c y ≤ c x then x :: y :: ys else y :: insertDescBy c x ys

/-- Model of Python `sorted(l, key=c, reverse=True)`: a stable sort in
descending key order. Python's sort is guaranteed stable, and any two
stable sorts agree, so this insertion sort is behaviourally identical. -/
def pySortedDescBy (c : String → Nat) : List String → List String
  | [] => []
  | x :: xs => insertDescBy c x (pySortedDescBy c xs)

/-- `findMode` from `wcsHelper.py` (lines 426-431): build the frequency
dictionary, sort its keys by frequency in descending order
(`sorted(freq, key=freq.get, reverse=True)` iterates the keys in insertion
order), and take the first; `freqlist[0]` on an empty list raises
`IndexError`, modelled as `none`. -/
def findMode (aList : List String) : Option String :=
  let freq := buildFreq aList
  (pySortedDescBy (fun t => (alookup t freq).getD 0) (keysOf freq)).head?

/-- The accumulation step of `makeModeMap` for one `(chip, term)` pair
(`wcsHelper.py` lines 419-424): create the per-chip list if absent and
append the term. -/
def insertTerm (at_ : Dict Int (List String)) (p : Int × String) : Dict Int (List String) :=
  upsert p.1 ((alookup p.1 at_).getD [] ++ [p.2]) at_

/-- `allTerms` of `makeModeMap` (`wcsHelper.py` lines 415-424): for every
speaker in iteration order, append each of their terms to the per-chip
accumulator list. -/
def allTermsOf (langData : Dict Int (Dict Int String)) : Dict Int (List String) :=
  langData.foldl (fun acc p => p.2.foldl insertTerm acc) []

/-- `makeModeMap` from `wcsHelper.py` (lines 384-437) in its
single-language form (the `lang=None` branch; the `lang` branch only
selects `data[lang]` first): accumulate all terms per chip across the
speakers, then take the per-chip mode. -/
def makeModeMap (langData : Dict Int (Dict Int String)) : Option (Dict Int String) :=
  (allTermsOf langData).mapM (fun p => (findMode p.2).map (fun m => (p.1, m)))

/-! ## Grid colors (`naming2grid`) -/

/-- One RGB value scaled to the unit interval, modelled over `ℚ`. -/
abbrev Row3 := ℚ × ℚ × ℚ

/-- Model of iterating `set(data.values())` (`wcsHelper.py` line 463):
first-occurrence deduplication. A Python set iterates in an unspecified
order; `naming2grid` only reads the resulting `term_colors` dictionary by
key lookup, so its output does not depend on the order chosen here. -/
def pyDedup (l : List String) : List String :=
  l.foldl (fun acc t => if t ∈ acc then acc else acc ++ [t]) []

/-- The term-averaging step of `naming2grid` (`wcsHelper.py`
lines 464-470) for one term: `np.where` over the positional values of
`data`, the lookups `chip_to_rgb[chipnum+1]` (raising `KeyError`,
modelled `none`, on a missing chip), and the channelwise mean divided
by 255. `np.mean` of an empty list is NaN, modelled as `none`; it is
unreachable from `naming2grid`, whose terms are drawn from
`data.values()`. -/
def termMean (data : Dict Int String) (chip_to_rgb : Dict Int (Int × Int × Int))
    (term : String) : Option Row3 :=
  let vals := data.map Prod.snd
  let term_idx := (List.range vals.length).filter (fun p => vals.get? p = some term)
  (term_idx.mapM (fun p : Nat => alookup ((p : Int) + 1) chip_to_rgb)).bind
    (fun rgbs =>
      if rgbs.length = 0 then none
      else
        some (((rgbs.map (fun r => (r.1 : ℚ))).sum / rgbs.length) / 255,
              ((rgbs.map (fun r => (r.2.1 : ℚ))).sum / rgbs.length) / 255,
              ((rgbs.map (fun r => (r.2.2 : ℚ))).sum / rgbs.length) / 255))

/-- Model of the NumPy row assignment `grid_colors[i] = v` on a 330-row
array: in range it replaces row `i`, out of range it raises `IndexError`
(modelled `none`; the index is never negative here). -/
def listSet (l : List Row3) (i : Nat) (v : Row3) : Option (List Row3) :=
  if i < l.length then some (l.set i v) else none

/-- `naming2grid` from `wcsHelper.py` (lines 440-476): average the RGB
values per distinct term, then fill rows `0..len(chip_to_rgb)-1` of a
330-row zero array with the averaged color of each chip's term
(`grid_colors[i-1] = term_colors[data[i]]` for `i` in
`1..len(chip_to_rgb)`; a chip missing from `data` or `term_colors` raises
`KeyError`). -/
def naming2grid (data : Dict Int String) (chip_to_rgb : Dict Int (Int × Int × Int)) :
    Option (List Row3) := do
  let term_colors ← (pyDedup (data.map Prod.snd)).mapM
    (fun t => (termMean data chip_to_rgb t).map (fun c => (t, c)))
  (List.range chip_to_rgb.length).foldlM
    (fun grid (i : Nat) => do
      let t ← alookup ((i : Int) + 1) data
      let col ← alookup t term_colors
      listSet grid i col)
    (List.replicate 330 ((0 : ℚ), (0 : ℚ), (0 : ℚ)))

/-! ## Plotting helpers (`_chip2ind`, `_grid2img`) -/

/-- The fixed Munsell row letters, `ROWS` in `_chip2ind`. -/
def ROWS : List String := ["A", "B", "C", "D", "E", "F", "G", "H", "I", "J"]

/-- Model of Python `l.index(x)`: the index of the first occurrence, a
`ValueError` (modelled `none`) when absent. -/
def listIndex : List String → String → Option Nat
  | [], _ => none
  | y :: l, x => if y = x then some 0 else (listIndex l x).map (fun n => n + 1)

/-- `_chip2ind` from `wcsHelper.py` (lines 480-491): look the chip up in
the chip-to-Munsell dictionary (`KeyError` when absent), take
`ROWS.index(row letter)` and the integer hue (`int` on the stored integer
hue is the identity). -/
def chip2ind (chipNum : Int) (chip_to_munsell : Dict Int (String × Int)) :
    Option (Nat × Int) := do
  let c ← alookup chipNum chip_to_munsell
  let row ← listIndex ROWS c.1
  some (row, c.2)

/-- Model of the NumPy assignment `img[i, j, :] = v` on a 10×42 array:
row index `i` is a natural number here; the column index `j` may be
negative, in which case NumPy counts from the end; anything out of range
raises `IndexError` (modelled `none`). -/
def imgSet (img : List (List Row3)) (i : Nat) (j : Int) (v : Row3) :
    Option (List (List Row3)) := do
  let r ← img.get? i
  let jn ←
    (if 0 ≤ j ∧ j < (r.length : Int) then some j.toNat
     else if -(r.length : Int) ≤ j ∧ j < 0 then some (r.length - (-j).toNat)
     else none)
  some (img.set i (r.set jn v))

/-- `_grid2img` from `wcsHelper.py` (lines 493-509): start from a
10×42 all-white image, and for each chip `1..len(grid)` write
`grid[chipNum-1]` at row `ROWS.index(letter)` and column `hue+1` when
`hue > 0`, column `hue` otherwise. The final
`if img[i, j, 0] == 50: img[i, j, :] = img[i, j, :]` of the source writes
a value to itself and has no observable effect, so it is not modelled. -/
def grid2img (grid : List Row3) (chip_to_munsell : Dict Int (String × Int)) :
    Option (List (List Row3)) :=
  (List.range grid.length).foldlM
    (fun img (k : Nat) => do
      let ij ← chip2ind ((k : Int) + 1) chip_to_munsell
      let j : Int := if ij.2 > 0 then ij.2 + 1 else ij.2
      let row ← grid.get? k
      imgSet img ij.1 j row)
    (List.replicate 10 (List.replicate 42 ((1 : ℚ), (1 : ℚ), (1 : ℚ))))

/-- Reads one cell of the image. -/
def imgCell (img : List (List Row3)) (r c : Nat) : Option Row3 :=
  (img.get? r).bind (fun row => row.get? c)

/-- The image cell targeted by a chip, written as the specification's
placement rule states it: row = index of the Munsell letter in `A..J`,
column = `hue+1` when `hue > 0` and `0` when `hue = 0`. -/
def targetCell (chip_to_munsell : Dict Int (String × Int)) (k : Nat) :
    Option (Nat × Nat) :=
  (chip2ind ((k : Int) + 1) chip_to_munsell).map
    (fun ij => (ij.1, (if ij.2 > 0 then ij.2 + 1 else ij.2).toNat))

/-- Well-formedness check of one chip-to-Munsell entry: present, with a
letter among `A..J` and a hue in `0..40`. -/
def munsOk : Option (String × Int) → Bool
  | some (L, h) => decide (L ∈ ROWS) && decide (0 ≤ h) && decide (h ≤ 40)
  | none => false

/-! ## Generic lemmas about the dict model -/

section DictLemmas

variable {κ ν : Type _} [DecidableEq κ]

theorem alookup_upsert_self (k : κ) (v : ν) (d : Dict κ ν) :
    alookup k (upsert k v d) = some v := by
  induction d with
  | nil => simp [upsert, alookup]
  | cons p d ih =>
    by_cases h : p.1 = k
    · simp [upsert, alookup, h]
    · simp [upsert, alookup, h, ih]

theorem alookup_upsert_ne (k k' : κ) (v : ν) (d : Dict κ ν) (h : k ≠ k') :
    alookup k' (upsert k v d) = alookup k' d := by
  induction d with
  | nil => simp [upsert, alookup, h]
  | cons p d ih =>
    rcases p with ⟨pk, pv⟩
    by_cases hp : pk = k
    · subst hp
      simp [upsert, alookup, h]
    · by_cases hk : pk = k'
      · simp [upsert, alookup, hp, hk, Ne.symm h]
      · simp [upsert, alookup, hp, hk, ih]

theorem alookup_eq_none {k : κ} {d : Dict κ ν} :
    alookup k d = none ↔ k ∉ keysOf d := by
  induction d with
  | nil => simp [alookup, keysOf]
  | cons p d ih =>
    by_cases h : p.1 = k
    · simp [alookup, keysOf, h]
    · simp [alookup, keysOf, h, ih, Ne.symm h]

theorem upsert_of_not_mem {k : κ} (v : ν) {d : Dict κ ν} (h : k ∉ keysOf d) :
    upsert k v d = d ++ [(k, v)] := by
  induction d with
  | nil => simp [upsert]
  | cons p d ih =>
    rcases p with ⟨pk, pv⟩
    simp only [keysOf, List.map_cons, List.mem_cons] at h
    push_neg at h
    simp only [upsert, if_neg (Ne.symm h.1), List.cons_append, List.cons.injEq, true_and]
    exact ih (by simpa [keysOf] using h.2)

theorem keysOf_upsert_of_mem {k : κ} (v : ν) {d : Dict κ ν} (h : k ∈ keysOf d) :
    keysOf (upsert k v d) = keysOf d := by
  induction d with
  | nil => simp [keysOf] at h
  | cons p d ih =>
    rcases p with ⟨pk, pv⟩
    simp only [keysOf, List.map_cons, List.mem_cons] at h
    by_cases hp : pk = k
    · simp [upsert, hp, keysOf]
    · rcases h with h | h
      · exact absurd h.symm hp
      · have := ih (by simpa [keysOf] using h)
        simp only [upsert, if_neg hp, keysOf, List.map_cons, List.cons.injEq, true_and]
        simpa [keysOf] using this

theorem keysOf_upsert_of_not_mem {k : κ} (v : ν) {d : Dict κ ν} (h : k ∉ keysOf d) :
    keysOf (upsert k v d) = keysOf d ++ [k] := by
  rw [upsert_of_not_mem v h]
  simp [keysOf]

theorem alookup_mem {k : κ} {v : ν} {d : Dict κ ν} (h : alookup k d = some v) :
    (k, v) ∈ d := by
  induction d with
  | nil => simp [alookup] at h
  | cons p d ih =>
    rcases p with ⟨pk, pv⟩
    by_cases hp : pk = k
    · subst hp
      have h' : pv = v := by simpa [alookup] using h
      subst h'
      exact List.mem_cons_self _ _
    · simp only [alookup, if_neg hp] at h
      exact List.mem_cons_of_mem _ (ih h)

theorem alookup_isSome {k : κ} {d : Dict κ ν} :
    (alookup k d).isSome = true ↔ k ∈ keysOf d := by
  rcases h : alookup k d with _ | v
  · simpa using alookup_eq_none.1 h
  · have hm := alookup_mem h
    simp only [Option.isSome_some, true_iff]
    exact List.mem_map_of_mem Prod.fst hm

theorem alookup_of_mem_nodup {k : κ} {v : ν} {d : Dict κ ν}
    (hnd : (keysOf d).Nodup) (h : (k, v) ∈ d) : alookup k d = some v := by
  induction d with
  | nil => simp at h
  | cons p d ih =>
    simp only [keysOf, List.map_cons, List.nodup_cons] at hnd
    rcases List.mem_cons.1 h with h | h
    · subst h
      simp [alookup]
    · have hne : p.1 ≠ k := by
        intro hk
        exact hnd.1 (by simpa [keysOf, hk] using List.mem_map_of_mem Prod.fst h)
      simp only [alookup, if_neg hne]
      exact ih hnd.2 h

theorem alookup_map_pair {α : Type _} [DecidableEq α] (f : α → ν) {t : α} {l : List α}
    (h : t ∈ l) : alookup t (l.map (fun x => (x, f x))) = some (f t) := by
  induction l with
  | nil => simp at h
  | cons x l ih =>
    by_cases hx : x = t
    · simp [alookup, hx]
    · rcases List.mem_cons.1 h with h | h
      · exact absurd h.symm hx
      · simp [alookup, hx, ih h]

theorem alookup_of_get? {d : Dict κ ν} {p : Nat} {k : κ} {v : ν}
    (hnd : (keysOf d).Nodup) (h : d.get? p = some (k, v)) : alookup k d = some v :=
  alookup_of_mem_nodup hnd (List.get?_mem h)

/-- Sum of a function of the values, and how `upsert` changes it
(stated additively to avoid natural subtraction). -/
theorem sumVals_upsert (f : ν → Nat) (k : κ) (v : ν) (d : Dict κ ν) (z : ν)
    (hz : f z = 0) :
    ((upsert k v d).map (fun p => f p.2)).sum + f ((alookup k d).getD z)
      = (d.map (fun p => f p.2)).sum + f v := by
  induction d with
  | nil => simp [upsert, alookup, hz]
  | cons p d ih =>
    rcases p with ⟨pk, pv⟩
    by_cases hp : pk = k
    · simp only [upsert, if_pos hp, alookup, if_pos hp, List.map_cons, List.sum_cons,
        Option.getD_some]
      omega
    · simp only [upsert, if_neg hp, alookup, if_neg hp, List.map_cons, List.sum_cons]
      omega

theorem length_upsert (k : κ) (v : ν) (d : Dict κ ν) :
    (upsert k v d).length = d.length + (if (alookup k d).isSome then 0 else 1) := by
  induction d with
  | nil => simp [upsert, alookup]
  | cons p d ih =>
    rcases p with ⟨pk, pv⟩
    by_cases hp : pk = k
    · simp [upsert, alookup, hp]
    · simp only [upsert, if_neg hp, alookup, if_neg hp, List.length_cons, ih]
      omega

end DictLemmas

/-! ## Generic lemmas about `Option`-valued folds and maps -/

section OptionFoldLemmas

variable {α β σ : Type _}

theorem optBind_some (a : α) (f : α → Option β) : (some a >>= f) = f a := rfl

theorem optBind_none (f : α → Option β) : ((none : Option α) >>= f) = none := rfl

theorem optMap_none (g : α → β) : Option.map g (none : Option α) = none := rfl

theorem optMap_some (g : α → β) (a : α) : Option.map g (some a) = some (g a) := rfl

theorem foldlM_eq_none (step : σ → α → Option σ) :
    ∀ (l : List α) (x : α), x ∈ l → (∀ acc, step acc x = none) →
      ∀ init, l.foldlM step init = none := by
  intro l
  induction l with
  | nil => intro x hx; simp at hx
  | cons y l ih =>
    intro x hx hfail init
    rw [List.foldlM_cons]
    rcases List.mem_cons.1 hx with h | h
    · subst h
      rw [hfail init]
      rfl
    · rcases hstep : step init y with _ | acc'
      · rfl
      · simpa [hstep] using ih x h hfail acc'

theorem foldlM_of_mapM (p : α → Option β) (g : σ → β → σ) :
    ∀ (l : List α) (es : List β), l.mapM p = some es →
      ∀ init, l.foldlM (fun acc a => (p a).map (g acc)) init = some (es.foldl g init) := by
  intro l
  induction l with
  | nil =>
    intro es hes init
    simp only [List.mapM_nil, pure, Option.some.injEq] at hes
    subst hes
    rfl
  | cons y l ih =>
    intro es hes init
    rw [List.mapM_cons] at hes
    rcases hy : p y with _ | b
    · rw [hy] at hes; simp [Option.bind] at hes
    · rw [hy] at hes
      rcases hl : l.mapM p with _ | bs
      · rw [hl] at hes; simp [Option.bind] at hes
      · rw [hl] at hes
        have : es = b :: bs := by
          simpa [Option.bind, pure] using hes.symm
        subst this
        rw [List.foldlM_cons]
        simp only [hy, Option.map_some']
        simpa using ih bs hl (g init b)

theorem mapM_eq_none (f : α → Option β) :
    ∀ (l : List α) (x : α), x ∈ l → f x = none → l.mapM f = none := by
  intro l
  induction l with
  | nil => intro x hx; simp at hx
  | cons y l ih =>
    intro x hx hfail
    rw [List.mapM_cons]
    rcases List.mem_cons.1 hx with h | h
    · subst h
      rw [hfail]
      rfl
    · rcases hy : f y with _ | b
      · rfl
      · rw [ih x h hfail]
        rfl

theorem mapM_map_of_some (f : α → Option β) (g : α → β) (h : α → β → σ)
    (l : List α) (hall : ∀ x ∈ l, f x = some (g x)) :
    l.mapM (fun x => (f x).map (h x)) = some (l.map (fun x => h x (g x))) := by
  induction l with
  | nil => rfl
  | cons y l ih =>
    rw [List.mapM_cons, hall y (List.mem_cons_self _ _)]
    rw [ih (fun x hx => hall x (List.mem_cons_of_mem _ hx))]
    rfl

end OptionFoldLemmas

/-! ## Claim C3: the speaker scenario -/

/-- **C3.** For the speaker input line `1 1 30 M`, `readSpeakerData` does
return the nested mapping with the tuple `(30, "M")` under language 1 and
speaker 1; but flattening it with `loadSpeakerTable` does not produce the
one-row table the claim states: `loadSpeakerTable` subscripts the stored
tuple with `[0]`, obtaining the integer 30, and the unpacking
`a, g = 30` raises `TypeError`, so no table is built. -/
theorem speaker_scenario_table_raises :
    readSpeakerData [["1", "1", "30", "M"]]
        = some [(1, [(1, PyVal.tup [PyAtom.int 30, PyAtom.str "M"])])] ∧
      loadSpeakerTable [(1, [(1, PyVal.tup [PyAtom.int 30, PyAtom.str "M"])])] = none := by
  decide

/-! ## Claim C1: foci normalization -/

/-- **C1, counterexample.** The foci line `1 1 1 red A21` is accepted by
`readFociData`, and the stored coordinate is `"A:0"` — not the `"A0"` the
claim states: the code first collapses the coordinate to `A0` and then
also inserts the separator colon. -/
theorem foci_A_stored_with_colon :
    readFociData [["1", "1", "1", "red", "A21"]]
        = some [(1, [(1, [("red", ["A:0"])])])] ∧ ("A:0" : String) ≠ "A0" := by
  decide

/-- The shape of the stored coordinate, for any nonempty raw coordinate:
`A...` is stored as `A:0`, `J...` as `J:0`, anything else as first
character, colon, rest. -/
theorem normFoci_eq (foci : String) (hne : foci ≠ "") :
    normFoci foci
      = some (if foci.front = 'A' then "A:0"
              else if foci.front = 'J' then "J:0"
              else String.singleton foci.front ++ ":" ++ foci.drop 1) := by
  rw [normFoci, if_neg hne, fociCollapse]
  by_cases hA : foci.front = 'A'
  · rw [if_pos hA, if_pos hA]
    decide
  · rw [if_neg hA, if_neg hA]
    by_cases hJ : foci.front = 'J'
    · rw [if_pos hJ, if_pos hJ]
      decide
    · rw [if_neg hJ, if_neg hJ]

/-- **C1** (amended): for every foci input line accepted by the reader's
loop body, the coordinate appended to the per-(language, speaker, term)
list is the normal form `"A:0"` when the raw coordinate starts with `A`,
`"J:0"` when it starts with `J`, and otherwise the raw coordinate with a
colon inserted after its first character. -/
theorem fociStep_stores_normal_form (fd fd' : FociData)
    (lang spkr tn term foci : String)
    (h : fociStep fd [lang, spkr, tn, term, foci] = some fd') (hne : foci ≠ "") :
    ∃ la sp, pyInt lang = some la ∧ pyInt spkr = some sp ∧
      lookupFoci fd' la sp term
        = some ((lookupFoci fd la sp term).getD [] ++
            [if foci.front = 'A' then "A:0"
             else if foci.front = 'J' then "J:0"
             else String.singleton foci.front ++ ":" ++ foci.drop 1]) := by
  rcases hla : pyInt lang with _ | la
  · rw [fociStep, parseFociFields, hla] at h
    exact Option.noConfusion h
  rcases hsp : pyInt spkr with _ | sp
  · rw [fociStep, parseFociFields, hla, hsp] at h
    exact Option.noConfusion h
  refine ⟨la, sp, rfl, rfl, ?_⟩
  rw [fociStep, parseFociFields, hla, hsp, normFoci_eq foci hne] at h
  have hfd := (Option.some.inj h).symm
  subst hfd
  simp only [insertFoci, lookupFoci, alookup_upsert_self, Option.getD_some]

/-- **C1, witness** for the amended theorem, at the foci line
`2 3 7 blue G12`. -/
theorem fociStep_stores_normal_form_witness :
    (fociStep [] ["2", "3", "7", "blue", "G12"]
        = some [(2, [(3, [("blue", ["G:12"])])])] ∧ ("G12" : String) ≠ "") ∧
      ∃ la sp, pyInt "2" = some la ∧ pyInt "3" = some sp ∧
        lookupFoci [(2, [(3, [("blue", ["G:12"])])])] la sp "blue"
          = some ((lookupFoci [] la sp "blue").getD [] ++
              [if ("G12" : String).front = 'A' then "A:0"
               else if ("G12" : String).front = 'J' then "J:0"
               else String.singleton ("G12" : String).front ++ ":" ++ ("G12" : String).drop 1]) :=
  ⟨⟨by decide, by decide⟩,
    fociStep_stores_normal_form [] [(2, [(3, [("blue", ["G:12"])])])]
      "2" "3" "7" "blue" "G12" (by decide) (by decide)⟩

/-! ## Claim C2: error behaviour of the chip table parser -/

/-- **C2, counterexample.** The 5-field all-numeric line `1 2 3 4 5` has
fewer than the expected 9 fields, yet the chip table parser raises no
parse error: all three per-line parsers accept it and silently produce
dictionary entries (with a truncated CIELAB tuple). -/
theorem chip_short_line_parses :
    (["1", "2", "3", "4", "5"] : List String).length < 9 ∧
      readChipDicts [["1", "2", "3", "4", "5"]]
        = some ([("45", 1)], [(1, ("4", 5))], [(1, [(5 : ℚ)])], [(1, [2, 3, 4])]) := by
  decide

theorem parseMunsellFields_none {fields : List String} {f0 : String}
    (hh : fields.head? = some f0) (hf : pyInt f0 = none) :
    parseMunsellFields fields = none := by
  rw [parseMunsellFields]
  simp only [hh, optBind_some, hf, optBind_none]

theorem parseRgbFields_none {fields : List String}
    (hbad : ∃ f ∈ (fields.drop 1).take 3, pyInt f = none) :
    parseRgbFields fields = none := by
  obtain ⟨f, hmem, hf⟩ := hbad
  rw [parseRgbFields]
  rcases hh : fields.head? with _ | f0
  · simp only [hh, optBind_none]
  rcases hi : pyInt f0 with _ | i
  · simp only [hh, optBind_some, hi, optBind_none]
  simp only [hh, optBind_some, hi, mapM_eq_none pyInt _ f hmem hf, optBind_none]

theorem parseClabFields_none {fields : List String}
    (hbad : ∃ f ∈ (fields.drop 4).take 3, pyFloat f = none) :
    parseClabFields fields = none := by
  obtain ⟨f, hmem, hf⟩ := hbad
  rw [parseClabFields]
  rcases hh : fields.head? with _ | f0
  · simp only [hh, optBind_none]
  rcases hi : pyInt f0 with _ | i
  · simp only [hh, optBind_some, hi, optBind_none]
  simp only [hh, optBind_some, hi, mapM_eq_none pyFloat _ f hmem hf, optBind_none]

/-- **C2** (amended): a line whose numeric fields actually read by the
parsers are non-numeric does make the chip table parser fail with a parse
error — the index (first field), the R, G, B fields present among
positions 1..3 (as integers), and the l, a, b fields present among
positions 4..6 (as floats). A line with fewer than 9 fields, however,
need not fail: the counterexample shows a short all-numeric line being
accepted silently. -/
theorem readChipDicts_fails_on_nonnumeric (lines : List (List String))
    (fields : List String) (hmem : fields ∈ lines)
    (hbad : (∃ f0, fields.head? = some f0 ∧ pyInt f0 = none) ∨
            (∃ f ∈ (fields.drop 1).take 3, pyInt f = none) ∨
            (∃ f ∈ (fields.drop 4).take 3, pyFloat f = none)) :
    readChipDicts lines = none := by
  rcases hbad with ⟨f0, hh, hf⟩ | hbad | hbad
  · have hm : get_munsell_dicts lines = none := by
      apply foldlM_eq_none _ lines fields hmem
      intro acc
      rw [parseMunsellFields_none hh hf]
      rfl
    rw [readChipDicts]
    simp only [hm, optBind_none]
  · have hr : get_rgb_dict lines = none := by
      apply foldlM_eq_none _ lines fields hmem
      intro acc
      rw [parseRgbFields_none hbad]
      rfl
    rw [readChipDicts]
    rcases hm : get_munsell_dicts lines with _ | m
    · simp only [hm, optBind_none]
    simp only [hm, optBind_some]
    rcases hc : get_clab_dict lines with _ | c
    · simp only [hc, optBind_none]
    simp only [hc, optBind_some, hr, optBind_none]
  · have hc : get_clab_dict lines = none := by
      apply foldlM_eq_none _ lines fields hmem
      intro acc
      rw [parseClabFields_none hbad]
      rfl
    rw [readChipDicts]
    rcases hm : get_munsell_dicts lines with _ | m
    · simp only [hm, optBind_none]
    simp only [hm, optBind_some, hc, optBind_none]

/-- **C2, witness** for the amended theorem: the line `1 A 3` (a
non-numeric G field) makes the whole chip parse fail. -/
theorem readChipDicts_fails_on_nonnumeric_witness :
    ((["1", "A", "3"] : List String) ∈ [["1", "A", "3"]] ∧
        (∃ f ∈ ((["1", "A", "3"] : List String).drop 1).take 3, pyInt f = none)) ∧
      readChipDicts [["1", "A", "3"]] = none :=
  ⟨⟨by decide, by decide⟩,
    readChipDicts_fails_on_nonnumeric [["1", "A", "3"]] ["1", "A", "3"] (by decide)
      (Or.inr (Or.inl (by decide)))⟩

/-! ## Claim C10: entry count and last-write-wins of `readNamingData` -/

theorem lookupNaming_insert (nd : NamingData) (e : Int × Int × Int × String)
    (la sp ch : Int) :
    lookupNaming (insertNaming nd e) la sp ch
      = if la = e.1 ∧ sp = e.2.1 ∧ ch = e.2.2.1 then some e.2.2.2
        else lookupNaming nd la sp ch := by
  rcases e with ⟨el, es, ec, et⟩
  simp only [lookupNaming, insertNaming]
  by_cases h1 : la = el
  · subst h1
    rw [alookup_upsert_self]
    simp only [Option.getD_some]
    by_cases h2 : sp = es
    · subst h2
      rw [alookup_upsert_self]
      simp only [Option.getD_some]
      by_cases h3 : ch = ec
      · subst h3
        rw [alookup_upsert_self]
        simp
      · rw [alookup_upsert_ne _ _ _ _ (fun hh => h3 hh.symm),
          if_neg (fun hh => h3 hh.2.2)]
    · rw [alookup_upsert_ne _ _ _ _ (fun hh => h2 hh.symm),
        if_neg (fun hh => h2 hh.2.1)]
  · rw [alookup_upsert_ne _ _ _ _ (fun hh => h1 hh.symm),
      if_neg (fun hh => h1 hh.1)]

theorem leafCount_insert (nd : NamingData) (e : Int × Int × Int × String) :
    leafCount (insertNaming nd e)
      = leafCount nd + (if lookupNaming nd e.1 e.2.1 e.2.2.1 = none then 1 else 0) := by
  rcases e with ⟨el, es, ec, et⟩
  simp only [leafCount, insertNaming, lookupNaming]
  have h1 := sumVals_upsert (fun ld : Dict Int (Dict Int String) =>
      (ld.map (fun q => q.2.length)).sum)
    el (upsert es (upsert ec et ((alookup es ((alookup el nd).getD [])).getD []))
      ((alookup el nd).getD [])) nd [] rfl
  have h2 := sumVals_upsert (fun sd : Dict Int String => sd.length)
    es (upsert ec et ((alookup es ((alookup el nd).getD [])).getD []))
    ((alookup el nd).getD []) [] rfl
  have h3 := length_upsert ec et ((alookup es ((alookup el nd).getD [])).getD [])
  beta_reduce at h1 h2
  by_cases h4 : (alookup ec ((alookup es ((alookup el nd).getD [])).getD [])).isSome
  · obtain ⟨v, hv⟩ := Option.isSome_iff_exists.1 h4
    rw [hv, Option.isSome_some, if_pos rfl] at h3
    rw [if_neg (show ¬(alookup ec ((alookup es ((alookup el nd).getD [])).getD []) = none) from
      fun hh => Option.noConfusion (hv ▸ hh))]
    omega
  · have hv := Option.not_isSome_iff_eq_none.1 h4
    rw [hv, Option.isSome_none, if_neg (by decide)] at h3
    rw [if_pos hv]
    omega

theorem lastTerm_append_singleton (es : List (Int × Int × Int × String))
    (e : Int × Int × Int × String) (tr : Int × Int × Int) :
    lastTerm (es ++ [e]) tr
      = if tripleOf e = tr then some e.2.2.2 else lastTerm es tr := by
  rw [lastTerm, lastTerm, List.filter_append, List.getLast?_append]
  by_cases h : tripleOf e = tr
  · simp [h]
  · simp [h]

theorem lastTerm_eq_none (es : List (Int × Int × Int × String)) (tr : Int × Int × Int) :
    lastTerm es tr = none ↔ tr ∉ es.map tripleOf := by
  rw [lastTerm, Option.map_eq_none', List.getLast?_eq_none_iff, List.filter_eq_nil_iff]
  constructor
  · intro h hmem
    obtain ⟨e, he, htr⟩ := List.mem_map.1 hmem
    exact h e he (by simp [htr])
  · intro h e he
    simp only [decide_eq_true_eq]
    intro htr
    exact h (List.mem_map.2 ⟨e, he, htr⟩)

theorem lookupNaming_nil (la sp ch : Int) :
    lookupNaming ([] : NamingData) la sp ch = none := rfl

theorem foldl_insertNaming_lookup (entries : List (Int × Int × Int × String))
    (init : NamingData) (la sp ch : Int) :
    lookupNaming (entries.foldl insertNaming init) la sp ch
      = (lastTerm entries (la, sp, ch)).or (lookupNaming init la sp ch) := by
  induction entries using List.reverseRecOn with
  | nil => simp [lastTerm]
  | append_singleton es e ih =>
    rw [List.foldl_append, List.foldl_cons, List.foldl_nil, lookupNaming_insert,
      lastTerm_append_singleton]
    by_cases h : la = e.1 ∧ sp = e.2.1 ∧ ch = e.2.2.1
    · have hc2 : tripleOf e = (la, sp, ch) := by
        rw [tripleOf, h.1, h.2.1, h.2.2]
      rw [if_pos h, if_pos hc2]
      rfl
    · have hc2 : ¬(tripleOf e = (la, sp, ch)) := by
        intro hh
        apply h
        simp only [tripleOf, Prod.mk.injEq] at hh
        exact ⟨hh.1.symm, hh.2.1.symm, hh.2.2.symm⟩
      rw [if_neg h, if_neg hc2, ih]

theorem foldl_insertNaming_leafCount (entries : List (Int × Int × Int × String)) :
    leafCount (entries.foldl insertNaming [])
      = (entries.map tripleOf).toFinset.card := by
  induction entries using List.reverseRecOn with
  | nil => rfl
  | append_singleton es e ih =>
    rw [List.foldl_append, List.foldl_cons, List.foldl_nil, leafCount_insert, ih]
    have hlast : lookupNaming (es.foldl insertNaming []) e.1 e.2.1 e.2.2.1
        = lastTerm es (e.1, e.2.1, e.2.2.1) := by
      rw [foldl_insertNaming_lookup, lookupNaming_nil, Option.or_none]
    have htf : ((es ++ [e]).map tripleOf).toFinset
        = insert (tripleOf e) (es.map tripleOf).toFinset := by
      rw [List.map_append, List.toFinset_append]
      simp [Finset.insert_eq, Finset.union_comm]
    rw [htf, hlast]
    by_cases hmem : tripleOf e ∈ es.map tripleOf
    · have hnone : ¬(lastTerm es (e.1, e.2.1, e.2.2.1) = none) := by
        rw [lastTerm_eq_none]
        simpa [tripleOf] using hmem
      rw [if_neg hnone, Finset.insert_eq_self.2 (by simpa using hmem)]
      omega
    · have hnone : lastTerm es (e.1, e.2.1, e.2.2.1) = none := by
        rw [lastTerm_eq_none]
        simpa [tripleOf] using hmem
      rw [if_pos hnone, Finset.card_insert_of_not_mem (by simpa using hmem)]

/-- **C10.** For every naming input whose lines all parse, `readNamingData`
succeeds; the number of (language, speaker, chip) leaf entries in the
nested mapping equals the number of distinct key triples among the input
lines; and the term stored for each triple is the one of the last input
line carrying that triple (last write wins). -/
theorem readNamingData_spec (lines : List (List String))
    (entries : List (Int × Int × Int × String))
    (hp : lines.mapM parseNamingFields = some entries) :
    ∃ nd, readNamingData lines = some nd ∧
      leafCount nd = (entries.map tripleOf).dedup.length ∧
      ∀ la sp ch, lookupNaming nd la sp ch = lastTerm entries (la, sp, ch) := by
  refine ⟨entries.foldl insertNaming [],
    foldlM_of_mapM parseNamingFields insertNaming lines entries hp [], ?_, ?_⟩
  · rw [foldl_insertNaming_leafCount, List.card_toFinset]
  · intro la sp ch
    rw [foldl_insertNaming_lookup, lookupNaming_nil, Option.or_none]

/-- **C10, witness**: a three-line naming file with one duplicated triple;
two leaf entries remain and the duplicated triple keeps the last term. -/
theorem readNamingData_spec_witness :
    ([["1", "1", "5", "red"], ["1", "2", "5", "blu"], ["1", "1", "5", "grn"]].mapM
          parseNamingFields
        = some [(1, 1, 5, "red"), (1, 2, 5, "blu"), (1, 1, 5, "grn")]) ∧
      ∃ nd,
        readNamingData [["1", "1", "5", "red"], ["1", "2", "5", "blu"], ["1", "1", "5", "grn"]]
            = some nd ∧
          leafCount nd
              = (([(1, 1, 5, "red"), (1, 2, 5, "blu"), (1, 1, 5, "grn")].map tripleOf).dedup).length ∧
          ∀ la sp ch, lookupNaming nd la sp ch
              = lastTerm [(1, 1, 5, "red"), (1, 2, 5, "blu"), (1, 1, 5, "grn")] (la, sp, ch) :=
  ⟨by decide,
    readNamingData_spec [["1", "1", "5", "red"], ["1", "2", "5", "blu"], ["1", "1", "5", "grn"]]
      [(1, 1, 5, "red"), (1, 2, 5, "blu"), (1, 1, 5, "grn")] (by decide)⟩

/-! ## Claim C4: `findMode` selects the first-occurring maximum count -/

theorem buildFreq_alookup_aux (l : List String) :
    ∀ (acc : Dict String Nat) (t : String),
      alookup t (l.foldl freqStep acc)
        = if t ∈ l ∨ (alookup t acc).isSome
          then some ((alookup t acc).getD 0 + l.count t) else none := by
  induction l with
  | nil =>
    intro acc t
    rcases h : alookup t acc with _ | n
    · simp [h]
    · simp [h]
  | cons x l ih =>
    intro acc t
    rw [List.foldl_cons, ih]
    by_cases hx : x = t
    · subst hx
      rw [freqStep, alookup_upsert_self]
      rcases h : alookup x acc with _ | n
      · simp [h, List.count_cons_self]
        omega
      · simp [h, List.count_cons_self]
        omega
    · rw [freqStep, alookup_upsert_ne _ _ _ _ hx]
      have hcnt : (x :: l).count t = l.count t :=
        List.count_cons_of_ne (fun hh => hx hh.symm) l
      rw [hcnt]
      by_cases hcond : t ∈ l ∨ (alookup t acc).isSome = true
      · rw [if_pos hcond, if_pos (by
          rcases hcond with h | h
          · exact Or.inl (List.mem_cons_of_mem _ h)
          · exact Or.inr h)]
      · rw [if_neg hcond, if_neg (by
          intro hh
          apply hcond
          rcases hh with h | h
          · rcases List.mem_cons.1 h with h | h
            · exact absurd h.symm hx
            · exact Or.inl h
          · exact Or.inr h)]

theorem buildFreq_alookup (aList : List String) (t : String) :
    alookup t (buildFreq aList)
      = if t ∈ aList then some (aList.count t) else none := by
  rw [buildFreq, buildFreq_alookup_aux]
  simp [alookup]

theorem indexOf_append_left {a : String} {l₁ l₂ : List String} (h : a ∈ l₁) :
    (l₁ ++ l₂).indexOf a = l₁.indexOf a :=
  List.indexOf_append_of_mem h

theorem buildFreq_keys_inv :
    ∀ (rest done : List String) (acc : Dict String Nat),
      (∀ t, t ∈ keysOf acc ↔ t ∈ done) →
      (keysOf acc).Pairwise
        (fun a b => (done ++ rest).indexOf a < (done ++ rest).indexOf b) →
      (∀ t, t ∈ keysOf (rest.foldl freqStep acc) ↔ t ∈ done ++ rest) ∧
        (keysOf (rest.foldl freqStep acc)).Pairwise
          (fun a b => (done ++ rest).indexOf a < (done ++ rest).indexOf b) := by
  intro rest
  induction rest with
  | nil =>
    intro done acc hmem hpair
    constructor
    · intro t
      rw [List.foldl_nil, List.append_nil]
      exact hmem t
    · rw [List.foldl_nil]
      exact hpair
  | cons x rest ih =>
    intro done acc hmem hpair
    have hL : (done ++ [x]) ++ rest = done ++ x :: rest := by
      rw [List.append_assoc, List.singleton_append]
    rw [List.foldl_cons]
    by_cases hx : x ∈ keysOf acc
    · have hkeys : keysOf (freqStep acc x) = keysOf acc := keysOf_upsert_of_mem _ hx
      have hmem' : ∀ t, t ∈ keysOf (freqStep acc x) ↔ t ∈ done ++ [x] := by
        intro t
        rw [hkeys, hmem t]
        constructor
        · intro h; exact List.mem_append_left _ h
        · intro h
          rcases List.mem_append.1 h with h | h
          · exact h
          · have htx := List.mem_singleton.1 h
            rw [htx]
            exact (hmem x).1 hx
      have hpair' : (keysOf (freqStep acc x)).Pairwise
          (fun a b => ((done ++ [x]) ++ rest).indexOf a < ((done ++ [x]) ++ rest).indexOf b) := by
        rw [hL, hkeys]
        exact hpair
      have := ih (done ++ [x]) (freqStep acc x) hmem' hpair'
      rw [hL] at this
      exact this
    · have hkeys : keysOf (freqStep acc x) = keysOf acc ++ [x] :=
        keysOf_upsert_of_not_mem _ hx
      have hxdone : x ∉ done := fun h => hx ((hmem x).2 h)
      have hmem' : ∀ t, t ∈ keysOf (freqStep acc x) ↔ t ∈ done ++ [x] := by
        intro t
        rw [hkeys, List.mem_append, List.mem_append, hmem t]
      have hpair' : (keysOf (freqStep acc x)).Pairwise
          (fun a b => ((done ++ [x]) ++ rest).indexOf a < ((done ++ [x]) ++ rest).indexOf b) := by
        rw [hL, hkeys, List.pairwise_append]
        refine ⟨hpair, List.pairwise_singleton _ _, ?_⟩
        intro a ha b hb
        have hbx := List.mem_singleton.1 hb
        rw [hbx]
        have haDone : a ∈ done := (hmem a).1 ha
        have h1 : (done ++ x :: rest).indexOf a = done.indexOf a :=
          List.indexOf_append_of_mem haDone
        have h2 : (done ++ x :: rest).indexOf x = done.length + (x :: rest).indexOf x :=
          List.indexOf_append_of_not_mem hxdone
        have h3 : (x :: rest).indexOf x = 0 := List.indexOf_cons_self x rest
        rw [h1, h2, h3]
        have := List.indexOf_lt_length.2 haDone
        omega
      have := ih (done ++ [x]) (freqStep acc x) hmem' hpair'
      rw [hL] at this
      exact this

theorem pySortedDescBy_head (c : String → Nat) :
    ∀ (ks : List String), ks ≠ [] →
      ∃ m pre post, (pySortedDescBy c ks).head? = some m ∧ ks = pre ++ m :: post ∧
        (∀ y ∈ pre, c y < c m) ∧ (∀ y ∈ post, c y ≤ c m) := by
  intro ks
  induction ks with
  | nil => intro h; exact absurd rfl h
  | cons x ks ih =>
    intro _
    by_cases hempty : ks = []
    · subst hempty
      exact ⟨x, [], [], rfl, rfl, by simp, by simp⟩
    · obtain ⟨m, pre, post, hhead, hdecomp, hpre, hpost⟩ := ih hempty
      obtain ⟨tail, htail⟩ : ∃ tail, pySortedDescBy c ks = m :: tail := by
        rcases hs : pySortedDescBy c ks with _ | ⟨m', t⟩
        · rw [hs] at hhead
          exact absurd hhead (by simp)
        · rw [hs] at hhead
          simp only [List.head?_cons, Option.some.injEq] at hhead
          exact ⟨t, by rw [hhead]⟩
      have hsort : pySortedDescBy c (x :: ks) = insertDescBy c x (m :: tail) := by
        rw [pySortedDescBy, htail]
      by_cases hcmp : c m ≤ c x
      · refine ⟨x, [], ks, ?_, rfl, by simp, ?_⟩
        · rw [hsort, insertDescBy, if_pos hcmp]
          rfl
        · intro y hy
          rw [hdecomp] at hy
          rcases List.mem_append.1 hy with h | h
          · exact le_trans (le_of_lt (hpre y h)) hcmp
          · rcases List.mem_cons.1 h with h | h
            · rw [h]; exact hcmp
            · exact le_trans (hpost y h) hcmp
      · refine ⟨m, x :: pre, post, ?_, by rw [hdecomp, List.cons_append], ?_, hpost⟩
        · rw [hsort, insertDescBy, if_neg hcmp]
          rfl
        · intro y hy
          rcases List.mem_cons.1 hy with h | h
          · rw [h]; omega
          · exact hpre y h

/-- **C4.** For every nonempty per-chip term list, `findMode` returns a
term of the list whose occurrence count is maximal; and among the terms
tying for the maximum count the returned one is the term whose first
occurrence in the list is earliest (first-occurrence precedence under
insertion order). -/
theorem findMode_first_max (aList : List String) (hne : aList ≠ []) :
    ∃ m, findMode aList = some m ∧ m ∈ aList ∧
      (∀ t ∈ aList, aList.count t ≤ aList.count m) ∧
      (∀ t ∈ aList, aList.count t = aList.count m →
        aList.indexOf m ≤ aList.indexOf t) := by
  have hkeysinv := buildFreq_keys_inv aList [] [] (by simp [keysOf]) (by simp [keysOf])
  rw [List.nil_append] at hkeysinv
  obtain ⟨hmemks, hpair⟩ := hkeysinv
  rw [← buildFreq] at hmemks hpair
  have hksne : keysOf (buildFreq aList) ≠ [] := by
    obtain ⟨y, hy⟩ := List.exists_mem_of_ne_nil aList hne
    intro hcon
    have hyk : y ∈ keysOf (buildFreq aList) := (hmemks y).2 hy
    rw [hcon] at hyk
    simp at hyk
  obtain ⟨m, pre, post, hhead, hdecomp, hpre, hpost⟩ :=
    pySortedDescBy_head (fun t => (alookup t (buildFreq aList)).getD 0)
      (keysOf (buildFreq aList)) hksne
  have hmode : findMode aList = some m := by
    rw [findMode]
    exact hhead
  have hcval : ∀ t ∈ aList,
      (alookup t (buildFreq aList)).getD 0 = aList.count t := by
    intro t ht
    rw [buildFreq_alookup, if_pos ht, Option.getD_some]
  have hmks : m ∈ keysOf (buildFreq aList) := by
    rw [hdecomp]
    exact List.mem_append_right _ (List.mem_cons_self _ _)
  have hmal : m ∈ aList := (hmemks m).1 hmks
  refine ⟨m, hmode, hmal, ?_, ?_⟩
  · intro t ht
    have htks : t ∈ keysOf (buildFreq aList) := (hmemks t).2 ht
    rw [hdecomp] at htks
    rcases List.mem_append.1 htks with h | h
    · have := hpre t h
      rw [hcval t ht, hcval m hmal] at this
      omega
    · rcases List.mem_cons.1 h with h | h
      · rw [h]
      · have := hpost t h
        rw [hcval t ht, hcval m hmal] at this
        exact this
  · intro t ht hcount
    have htks : t ∈ keysOf (buildFreq aList) := (hmemks t).2 ht
    rw [hdecomp] at htks
    rcases List.mem_append.1 htks with h | h
    · have := hpre t h
      rw [hcval t ht, hcval m hmal] at this
      omega
    · rcases List.mem_cons.1 h with h | h
      · rw [h]
      · rw [hdecomp] at hpair
        have hrel := (List.pairwise_append.1 hpair).2.1
        rw [List.pairwise_cons] at hrel
        exact le_of_lt (hrel.1 t h)

/-- **C4, witness**: the list `b a b a c` (counts: b and a tie at 2);
the mode is `b`, the earliest of the tied terms to occur. -/
theorem findMode_first_max_witness :
    (["b", "a", "b", "a", "c"] : List String) ≠ [] ∧
      ∃ m, findMode ["b", "a", "b", "a", "c"] = some m ∧
        m ∈ (["b", "a", "b", "a", "c"] : List String) ∧
        (∀ t ∈ (["b", "a", "b", "a", "c"] : List String),
          (["b", "a", "b", "a", "c"] : List String).count t
            ≤ (["b", "a", "b", "a", "c"] : List String).count m) ∧
        (∀ t ∈ (["b", "a", "b", "a", "c"] : List String),
          (["b", "a", "b", "a", "c"] : List String).count t
              = (["b", "a", "b", "a", "c"] : List String).count m →
            (["b", "a", "b", "a", "c"] : List String).indexOf m
              ≤ (["b", "a", "b", "a", "c"] : List String).indexOf t) :=
  ⟨by decide, findMode_first_max ["b", "a", "b", "a", "c"] (by decide)⟩

/-! ## Claim C5: idempotence of `makeModeMap` -/

theorem findMode_singleton (t : String) : findMode [t] = some t := rfl

theorem foldl_insertTerm_fresh :
    ∀ (m : Dict Int String) (acc : Dict Int (List String)),
      (m.map Prod.fst).Nodup → (∀ k ∈ m.map Prod.fst, k ∉ keysOf acc) →
      m.foldl insertTerm acc = acc ++ m.map (fun p => (p.1, [p.2])) := by
  intro m
  induction m with
  | nil => intro acc _ _; simp
  | cons p m ih =>
    intro acc hnd hfresh
    rcases p with ⟨c, t⟩
    rw [List.foldl_cons]
    have hc : c ∉ keysOf acc := hfresh c (by simp)
    have hstep : insertTerm acc (c, t) = acc ++ [(c, [t])] := by
      rw [insertTerm]
      simp only [alookup_eq_none.2 hc, Option.getD_none, List.nil_append]
      exact upsert_of_not_mem _ hc
    rw [hstep]
    simp only [List.map_cons, List.nodup_cons] at hnd
    rw [ih (acc ++ [(c, [t])]) hnd.2 ?fresh]
    · simp
    case fresh =>
      intro k hk
      rw [keysOf, List.map_append]
      intro hmem
      rcases List.mem_append.1 hmem with h | h
      · exact hfresh k (List.mem_cons_of_mem _ hk) h
      · simp only [List.map_cons, List.map_nil, List.mem_singleton] at h
        rw [h] at hk
        exact hnd.1 hk

theorem mapM_modeMap (m : Dict Int String) :
    (m.map (fun p => (p.1, [p.2]))).mapM
        (fun p => (findMode p.2).map (fun mo => (p.1, mo)))
      = some m := by
  induction m with
  | nil => rfl
  | cons p m ih =>
    rw [List.map_cons, List.mapM_cons]
    rcases p with ⟨c, t⟩
    simp only [findMode_singleton, optMap_some, optBind_some, ih]
    rfl

/-- **C5.** Mode aggregation is idempotent: applying `makeModeMap` to the
single-speaker language data consisting of one speaker whose naming map is
`m` returns exactly `m`. -/
theorem makeModeMap_idempotent (s : Int) (m : Dict Int String)
    (hm : (m.map Prod.fst).Nodup) :
    makeModeMap [(s, m)] = some m := by
  have hall : allTermsOf [(s, m)] = m.map (fun p => (p.1, [p.2])) := by
    rw [allTermsOf, List.foldl_cons, List.foldl_nil]
    rw [foldl_insertTerm_fresh m [] hm (by simp [keysOf])]
    rfl
  rw [makeModeMap, hall, mapM_modeMap]

/-- **C5, witness**: one speaker with the two-chip naming map
`(3, "g"), (5, "r")`. -/
theorem makeModeMap_idempotent_witness :
    (([(3, "g"), (5, "r")] : Dict Int String).map Prod.fst).Nodup ∧
      makeModeMap [(1, [(3, "g"), (5, "r")])] = some [(3, "g"), (5, "r")] :=
  ⟨by decide, makeModeMap_idempotent 1 [(3, "g"), (5, "r")] (by decide)⟩

/-! ## Claim C6: the Munsell coordinate/index dictionaries are inverse -/

theorem foldl_pair_upserts (ps : List (Int × String × String × Int)) :
    ∀ (a : Dict String Int) (b : Dict Int (String × Int)),
      ps.foldl munsellInsert (a, b)
        = (ps.foldl (fun d e => upsert (e.2.1 ++ e.2.2.1) e.1 d) a,
           ps.foldl (fun d e => upsert e.1 (e.2.1, e.2.2.2) d) b) := by
  induction ps with
  | nil => intro a b; rfl
  | cons p ps ih =>
    intro a b
    rw [List.foldl_cons, List.foldl_cons, List.foldl_cons, munsellInsert]
    exact ih _ _

theorem foldl_upsert_fresh {κ ν β : Type _} [DecidableEq κ]
    (keyf : β → κ) (valf : β → ν) :
    ∀ (es : List β) (acc : Dict κ ν),
      (es.map keyf).Nodup → (∀ k ∈ es.map keyf, k ∉ keysOf acc) →
      es.foldl (fun d e => upsert (keyf e) (valf e) d) acc
        = acc ++ es.map (fun e => (keyf e, valf e)) := by
  intro es
  induction es with
  | nil => intro acc _ _; simp
  | cons e es ih =>
    intro acc hnd hfresh
    rw [List.foldl_cons]
    have hc : keyf e ∉ keysOf acc := hfresh (keyf e) (by simp)
    rw [upsert_of_not_mem (valf e) hc]
    simp only [List.map_cons, List.nodup_cons] at hnd
    rw [ih (acc ++ [(keyf e, valf e)]) hnd.2 ?fresh]
    · simp
    case fresh =>
      intro k hk
      rw [keysOf, List.map_append]
      intro hmem
      rcases List.mem_append.1 hmem with h | h
      · exact hfresh k (List.mem_cons_of_mem _ hk) h
      · simp only [List.map_cons, List.map_nil, List.mem_singleton] at h
        rw [h] at hk
        exact hnd.1 hk

/-- **C6.** For every chip file whose lines all parse, with pairwise
distinct chip indices and pairwise distinct concatenated coordinate keys,
the two dictionaries built by `_get_munsell_dicts` are exact inverses over
every chip of the file: the concatenated coordinate `L ++ H` of each line
looks up to that line's index, the index looks up to `(L, int H)`, and the
coordinate-to-index mapping is a bijection between its key set and the
chip set (it is injective, every index it produces is a key of the
chip-to-Munsell dictionary, and every key of that dictionary is produced
by some coordinate). -/
theorem munsell_dicts_inverse (lines : List (List String))
    (ps : List (Int × String × String × Int))
    (hp : lines.mapM parseMunsellFields = some ps)
    (hidx : (ps.map (fun p => p.1)).Nodup)
    (hkey : (ps.map (fun p => p.2.1 ++ p.2.2.1)).Nodup) :
    ∃ m2c c2m, get_munsell_dicts lines = some (m2c, c2m) ∧
      (∀ p ∈ ps, alookup (p.2.1 ++ p.2.2.1) m2c = some p.1 ∧
        alookup p.1 c2m = some (p.2.1, p.2.2.2)) ∧
      (∀ k₁ k₂ i, alookup k₁ m2c = some i → alookup k₂ m2c = some i → k₁ = k₂) ∧
      (∀ k i, alookup k m2c = some i → ∃ L h, alookup i c2m = some (L, h)) ∧
      (∀ i v, alookup i c2m = some v → ∃ k, alookup k m2c = some i) := by
  have hfold := foldlM_of_mapM parseMunsellFields munsellInsert lines ps hp ([], [])
  rw [foldl_pair_upserts] at hfold
  rw [foldl_upsert_fresh (fun e => e.2.1 ++ e.2.2.1) (fun e => e.1) ps [] hkey
    (by simp [keysOf])] at hfold
  rw [foldl_upsert_fresh (fun e => e.1) (fun e => (e.2.1, e.2.2.2)) ps [] hidx
    (by simp [keysOf])] at hfold
  rw [List.nil_append, List.nil_append] at hfold
  refine ⟨_, _, hfold, ?_, ?_, ?_, ?_⟩
  · intro p hp'
    have hkeys1 : keysOf (ps.map (fun e => (e.2.1 ++ e.2.2.1, e.1)))
        = ps.map (fun p => p.2.1 ++ p.2.2.1) := by
      rw [keysOf, List.map_map]
      rfl
    have hkeys2 : keysOf (ps.map (fun e => (e.1, (e.2.1, e.2.2.2))))
        = ps.map (fun p => p.1) := by
      rw [keysOf, List.map_map]
      rfl
    constructor
    · exact alookup_of_mem_nodup (by rw [hkeys1]; exact hkey)
        (List.mem_map_of_mem _ hp')
    · exact alookup_of_mem_nodup (by rw [hkeys2]; exact hidx)
        (List.mem_map_of_mem _ hp')
  · intro k₁ k₂ i h1 h2
    obtain ⟨p1, hp1, he1⟩ := List.mem_map.1 (alookup_mem h1)
    obtain ⟨p2, hp2, he2⟩ := List.mem_map.1 (alookup_mem h2)
    injection he1 with hk1 hi1
    injection he2 with hk2 hi2
    have hp12 : p1 = p2 :=
      List.inj_on_of_nodup_map hidx hp1 hp2 (by rw [hi1, hi2])
    rw [← hk1, ← hk2, hp12]
  · intro k i h
    obtain ⟨p1, hp1, he1⟩ := List.mem_map.1 (alookup_mem h)
    injection he1 with hk1 hi1
    have hkeys2 : keysOf (ps.map (fun e => (e.1, (e.2.1, e.2.2.2))))
        = ps.map (fun p => p.1) := by
      rw [keysOf, List.map_map]
      rfl
    refine ⟨p1.2.1, p1.2.2.2, ?_⟩
    rw [← hi1]
    exact alookup_of_mem_nodup (by rw [hkeys2]; exact hidx)
      (List.mem_map_of_mem _ hp1)
  · intro i v h
    obtain ⟨p1, hp1, he1⟩ := List.mem_map.1 (alookup_mem h)
    injection he1 with hi1 hv1
    have hkeys1 : keysOf (ps.map (fun e => (e.2.1 ++ e.2.2.1, e.1)))
        = ps.map (fun p => p.2.1 ++ p.2.2.1) := by
      rw [keysOf, List.map_map]
      rfl
    refine ⟨p1.2.1 ++ p1.2.2.1, ?_⟩
    rw [← hi1]
    exact alookup_of_mem_nodup (by rw [hkeys1]; exact hkey)
      (List.mem_map_of_mem _ hp1)

/-- **C6, witness**: a two-line chip file fragment with rows `A0` and
`B17` (the Munsell fields are the last two of each line). -/
theorem munsell_dicts_inverse_witness :
    ([["1", "255", "0", "0", "53.2", "80.1", "67.2", "A", "0"],
      ["2", "0", "255", "0", "87.7", "-86.1", "83.1", "B", "17"]].mapM parseMunsellFields
        = some [(1, "A", "0", 0), (2, "B", "17", 17)] ∧
      (([(1, "A", "0", 0), (2, "B", "17", 17)].map
        (fun p : Int × String × String × Int => p.1)).Nodup) ∧
      (([(1, "A", "0", 0), (2, "B", "17", 17)].map
        (fun p : Int × String × String × Int => p.2.1 ++ p.2.2.1)).Nodup)) ∧
      ∃ m2c c2m,
        get_munsell_dicts
            [["1", "255", "0", "0", "53.2", "80.1", "67.2", "A", "0"],
             ["2", "0", "255", "0", "87.7", "-86.1", "83.1", "B", "17"]]
          = some (m2c, c2m) ∧
        (∀ p ∈ ([(1, "A", "0", 0), (2, "B", "17", 17)] : List (Int × String × String × Int)),
          alookup (p.2.1 ++ p.2.2.1) m2c = some p.1 ∧
            alookup p.1 c2m = some (p.2.1, p.2.2.2)) ∧
        (∀ k₁ k₂ i, alookup k₁ m2c = some i → alookup k₂ m2c = some i → k₁ = k₂) ∧
        (∀ k i, alookup k m2c = some i → ∃ L h, alookup i c2m = some (L, h)) ∧
        (∀ i v, alookup i c2m = some v → ∃ k, alookup k m2c = some i) :=
  ⟨⟨by decide, by decide, by decide⟩,
    munsell_dicts_inverse
      [["1", "255", "0", "0", "53.2", "80.1", "67.2", "A", "0"],
       ["2", "0", "255", "0", "87.7", "-86.1", "83.1", "B", "17"]]
      [(1, "A", "0", 0), (2, "B", "17", 17)] (by decide) (by decide) (by decide)⟩

/-! ## Claim C9: missing chips surface as lookup failures in `naming2grid` -/

/-- **C9.** If some chip number `c` with `1 ≤ c ≤ len(chip_to_rgb)` is
absent from the keys of the naming map, `naming2grid` surfaces a lookup
failure rather than returning a grid: the final loop looks up `data[i]`
for every `i` in `1..len(chip_to_rgb)` without any prior cross-validation,
and the lookup at `c` (or an earlier failure) aborts the call. -/
theorem naming2grid_missing_chip (data : Dict Int String)
    (rgb : Dict Int (Int × Int × Int)) (c : Nat)
    (hc1 : 1 ≤ c) (hc2 : c ≤ rgb.length)
    (habs : alookup (c : Int) data = none) :
    naming2grid data rgb = none := by
  rw [naming2grid]
  rcases htc : (pyDedup (data.map Prod.snd)).mapM
      (fun t => (termMean data rgb t).map (fun col => (t, col))) with _ | tc
  · simp only [htc, optBind_none]
  simp only [htc, optBind_some]
  apply foldlM_eq_none _ (List.range rgb.length) (c - 1)
  · exact List.mem_range.2 (by omega)
  · intro grid
    have hcast : ((c - 1 : Nat) : Int) + 1 = (c : Int) := by omega
    rw [hcast, habs]
    rfl

/-- **C9, witness**: chip 1 is in range of the two-chip RGB map but
absent from the naming map `2 ↦ "x"`. -/
theorem naming2grid_missing_chip_witness :
    (1 ≤ 1 ∧ 1 ≤ ([(1, (1, 2, 3)), (2, (4, 5, 6))] : Dict Int (Int × Int × Int)).length ∧
        alookup ((1 : Nat) : Int) ([(2, "x")] : Dict Int String) = none) ∧
      naming2grid [(2, "x")] [(1, (1, 2, 3)), (2, (4, 5, 6))] = none :=
  ⟨⟨by decide, by decide, by decide⟩,
    naming2grid_missing_chip [(2, "x")] [(1, (1, 2, 3)), (2, (4, 5, 6))] 1
      (by decide) (by decide) (by decide)⟩

/-! ## Claim C7: the shape and content of the `naming2grid` grid -/

/-- The chips with the same term as stated by the claim: the chip numbers
`d+1` for `d` ranging over `0..N-1` whose naming entry is the term `t`. -/
def sameTermChips (data : Dict Int String) (N : Nat) (t : String) : List Nat :=
  (List.range N).filter (fun d' : Nat => alookup ((d' : Int) + 1) data = some t)

/-- The claim's row formula: the elementwise mean of the RGB triples of
all chips assigned the term `t`, each channel divided by 255. -/
def specRow (data : Dict Int String) (rgb : Dict Int (Int × Int × Int))
    (N : Nat) (t : String) : Row3 :=
  ((((sameTermChips data N t).map
      (fun d' : Nat => (((alookup ((d' : Int) + 1) rgb).getD (0, 0, 0)).1 : ℚ))).sum
     / (sameTermChips data N t).length) / 255,
   (((sameTermChips data N t).map
      (fun d' : Nat => (((alookup ((d' : Int) + 1) rgb).getD (0, 0, 0)).2.1 : ℚ))).sum
     / (sameTermChips data N t).length) / 255,
   (((sameTermChips data N t).map
      (fun d' : Nat => (((alookup ((d' : Int) + 1) rgb).getD (0, 0, 0)).2.2 : ℚ))).sum
     / (sameTermChips data N t).length) / 255)

/-- The ascending chip-number key list `1..N` (as Python ints). -/
def chipKeys (N : Nat) : List Int :=
  (List.range N).map (fun i : Nat => (i : Int) + 1)

theorem chipKeys_length (N : Nat) : (chipKeys N).length = N := by
  rw [chipKeys, List.length_map, List.length_range]

theorem chipKeys_get? (N : Nat) (p : Nat) (hp : p < N) :
    (chipKeys N).get? p = some ((p : Int) + 1) := by
  rw [chipKeys, List.get?_map, List.get?_range hp]
  rfl

theorem mapM_eq_map_of_some {α β : Type _} (f : α → Option β) (g : α → β) :
    ∀ (l : List α), (∀ x ∈ l, f x = some (g x)) → l.mapM f = some (l.map g) := by
  intro l
  induction l with
  | nil => intro _; rfl
  | cons x l ih =>
    intro hall
    rw [List.mapM_cons, hall x (List.mem_cons_self _ _),
      ih (fun y hy => hall y (List.mem_cons_of_mem _ hy))]
    rfl

theorem pyDedup_mem_aux (l : List String) :
    ∀ (acc : List String) (t : String),
      t ∈ l.foldl (fun acc t => if t ∈ acc then acc else acc ++ [t]) acc
        ↔ t ∈ acc ∨ t ∈ l := by
  induction l with
  | nil => intro acc t; simp
  | cons x l ih =>
    intro acc t
    rw [List.foldl_cons]
    by_cases hx : x ∈ acc
    · rw [if_pos hx, ih]
      constructor
      · rintro (h | h)
        · exact Or.inl h
        · exact Or.inr (List.mem_cons_of_mem _ h)
      · rintro (h | h)
        · exact Or.inl h
        · rcases List.mem_cons.1 h with h | h
          · rw [h]; exact Or.inl hx
          · exact Or.inr h
    · rw [if_neg hx, ih]
      constructor
      · rintro (h | h)
        · rcases List.mem_append.1 h with h | h
          · exact Or.inl h
          · rcases List.mem_singleton.1 h with h
            rw [h]; exact Or.inr (List.mem_cons_self _ _)
        · exact Or.inr (List.mem_cons_of_mem _ h)
      · rintro (h | h)
        · exact Or.inl (List.mem_append_left _ h)
        · rcases List.mem_cons.1 h with h | h
          · rw [h]
            exact Or.inl (List.mem_append_right _ (List.mem_singleton.2 rfl))
          · exact Or.inr h

theorem pyDedup_mem (l : List String) (t : String) : t ∈ pyDedup l ↔ t ∈ l := by
  rw [pyDedup, pyDedup_mem_aux]
  simp

theorem alookup_pos {ν : Type _} (d : Dict Int ν) (N : Nat)
    (hkeys : d.map Prod.fst = chipKeys N)
    (p : Nat) (hp : p < N) :
    alookup ((p : Int) + 1) d = (d.map Prod.snd).get? p := by
  have hlen : d.length = N := by
    have h := congrArg List.length hkeys
    rw [List.length_map, chipKeys_length] at h
    exact h
  have hnodup : (keysOf d).Nodup := by
    rw [keysOf, hkeys, chipKeys]
    refine List.Nodup.map ?_ (List.nodup_range N)
    intro a b hab
    have hab' : (a : Int) + 1 = (b : Int) + 1 := hab
    omega
  have hplen : p < d.length := by omega
  obtain ⟨q, hget⟩ : ∃ q, d.get? p = some q :=
    ⟨d.get ⟨p, hplen⟩, List.get?_eq_get hplen⟩
  have hk : q.1 = (p : Int) + 1 := by
    have h1 : (d.map Prod.fst).get? p = some q.1 := by
      rw [List.get?_map, hget]
      rfl
    rw [hkeys, chipKeys_get? N p hp] at h1
    simpa using h1.symm
  have hsnd : (d.map Prod.snd).get? p = some q.2 := by
    rw [List.get?_map, hget]
    rfl
  rw [hsnd, ← hk]
  exact alookup_of_get? hnodup (by rw [hget])

theorem termMean_spec (data : Dict Int String) (rgb : Dict Int (Int × Int × Int))
    (N : Nat)
    (hd : data.map Prod.fst = chipKeys N)
    (hr : rgb.map Prod.fst = chipKeys N)
    (t : String) (ht : t ∈ data.map Prod.snd) :
    termMean data rgb t = some (specRow data rgb N t) := by
  have hdlen : (data.map Prod.snd).length = N := by
    have h := congrArg List.length hd
    rw [List.length_map, chipKeys_length] at h
    rw [List.length_map]
    exact h
  have hrlen : (rgb.map Prod.snd).length = N := by
    have h := congrArg List.length hr
    rw [List.length_map, chipKeys_length] at h
    rw [List.length_map]
    exact h
  rw [termMean]
  have hfilter : (List.range (data.map Prod.snd).length).filter
        (fun p => decide ((data.map Prod.snd).get? p = some t))
      = sameTermChips data N t := by
    rw [hdlen, sameTermChips]
    refine List.filter_congr ?_
    intro p hp
    rw [decide_eq_decide, alookup_pos data N hd p (List.mem_range.1 hp)]
  rw [hfilter]
  have hmapM : (sameTermChips data N t).mapM (fun p : Nat => alookup ((p : Int) + 1) rgb)
      = some ((sameTermChips data N t).map
          (fun p : Nat => (alookup ((p : Int) + 1) rgb).getD (0, 0, 0))) := by
    refine mapM_eq_map_of_some _ _ _ ?_
    intro p hp
    have hp' := hp
    rw [sameTermChips, List.mem_filter] at hp'
    have hpN : p < N := List.mem_range.1 hp'.1
    have hsome : (alookup ((p : Int) + 1) rgb).isSome := by
      rw [alookup_pos rgb N hr p hpN]
      have : p < (rgb.map Prod.snd).length := by omega
      rw [List.get?_eq_get this]
      rfl
    obtain ⟨v, hv⟩ := Option.isSome_iff_exists.1 hsome
    rw [hv]
    rfl
  rw [hmapM, Option.some_bind]
  have hne : ((sameTermChips data N t).map
      (fun p : Nat => (alookup ((p : Int) + 1) rgb).getD (0, 0, 0))).length ≠ 0 := by
    obtain ⟨p₀, hp₀⟩ := List.mem_iff_get?.1 ht
    have hp₀N : p₀ < N := by
      obtain ⟨hlt, _⟩ := List.get?_eq_some.1 hp₀
      omega
    have hp₀mem : p₀ ∈ sameTermChips data N t := by
      rw [sameTermChips, List.mem_filter]
      refine ⟨List.mem_range.2 hp₀N, ?_⟩
      rw [alookup_pos data N hd p₀ hp₀N, hp₀]
      simp
    rw [List.length_map]
    intro hcon
    rw [List.length_eq_zero] at hcon
    rw [hcon] at hp₀mem
    simp at hp₀mem
  rw [if_neg hne]
  rw [specRow]
  simp only [List.map_map, List.length_map]
  rfl

theorem gridFold_spec (data : Dict Int String) (tc : Dict String Row3) :
    ∀ (n : Nat), n ≤ 330 →
      (∀ i : Nat, i < n →
        ((alookup ((i : Int) + 1) data).bind (fun t => alookup t tc)).isSome) →
      ∀ (g0 : List Row3), g0.length = 330 →
      ∃ g, (List.range n).foldlM
          (fun grid (i : Nat) => do
            let t ← alookup ((i : Int) + 1) data
            let col ← alookup t tc
            listSet grid i col) g0 = some g ∧
        g.length = 330 ∧
        ∀ j : Nat, g.get? j
          = if j < n
            then some (((alookup ((j : Int) + 1) data).bind
                (fun t => alookup t tc)).getD ((0 : ℚ), (0 : ℚ), (0 : ℚ)))
            else g0.get? j := by
  intro n
  induction n with
  | zero =>
    intro _ _ g0 hg0
    exact ⟨g0, rfl, hg0, fun j => by simp⟩
  | succ n ih =>
    intro hn hsucc g0 hg0
    obtain ⟨g, hg, hglen, hget⟩ := ih (by omega) (fun i hi => hsucc i (by omega)) g0 hg0
    rcases hdl : alookup ((n : Int) + 1) data with _ | t
    · have := hsucc n (by omega)
      rw [hdl] at this
      simp at this
    rcases htl : alookup t tc with _ | col
    · have := hsucc n (by omega)
      rw [hdl] at this
      simp only [Option.some_bind] at this
      rw [htl] at this
      simp at this
    refine ⟨g.set n col, ?_, by rw [List.length_set]; exact hglen, ?_⟩
    · rw [List.range_succ, List.foldlM_append, hg, optBind_some, List.foldlM_cons,
        hdl, optBind_some, htl, optBind_some]
      have hsetOk : listSet g n col = some (g.set n col) := by
        rw [listSet, if_pos (by omega)]
      rw [hsetOk, optBind_some, List.foldlM_nil]
      rfl
    · intro j
      by_cases hj : j = n
      · subst hj
        have h1 : (g.set j col).get? j = (fun _ => col) <$> g.get? j :=
          List.get?_set_eq col j g
        have h2 : g.get? j = g0.get? j := by
          rw [hget j, if_neg (by omega)]
        have h3 : ∃ v, g0.get? j = some v :=
          ⟨g0.get ⟨j, by omega⟩, List.get?_eq_get (by omega)⟩
        obtain ⟨v, hv⟩ := h3
        rw [h1, h2, hv]
        rw [if_pos (by omega), hdl]
        simp only [Option.some_bind]
        rw [htl]
        rfl
      · rw [List.get?_set_ne col g (by omega), hget j]
        by_cases hjn : j < n
        · rw [if_pos hjn, if_pos (by omega)]
        · rw [if_neg hjn, if_neg (by omega)]

/-- **C7, counterexample.** For the single-chip naming map `1 ↦ "a"` and
the single-chip RGB map (so N = 1), `naming2grid` returns a grid of 330
rows, not an N-row (1-row) grid: the result array is always allocated as
`np.zeros((330, 3))`. -/
theorem naming2grid_330_rows :
    (naming2grid [(1, "a")] [(1, (255, 255, 255))]).map List.length = some 330 ∧
      (330 : Nat) ≠ 1 := by
  decide

/-- **C7** (amended): for every naming map whose keys are exactly the
chips `1..N` in ascending order and every RGB map with the same keys,
with `N ≤ 330`, `naming2grid` returns a **330-row** grid whose row `c-1`,
for every chip `c ≤ N`, is the elementwise mean of the RGB triples of all
chips assigned the same term as `c` with each channel divided by 255, and
whose remaining rows `N..329` are zero. -/
theorem naming2grid_amended (N : Nat) (data : Dict Int String)
    (rgb : Dict Int (Int × Int × Int)) (hN : N ≤ 330)
    (hd : data.map Prod.fst = chipKeys N) (hr : rgb.map Prod.fst = chipKeys N) :
    ∃ g, naming2grid data rgb = some g ∧ g.length = 330 ∧
      (∀ c : Nat, 1 ≤ c → c ≤ N →
        ∃ t, alookup (c : Int) data = some t ∧
          g.get? (c - 1) = some (specRow data rgb N t)) ∧
      (∀ j : Nat, N ≤ j → j < 330 →
        g.get? j = some ((0 : ℚ), (0 : ℚ), (0 : ℚ))) := by
  have hdlen : (data.map Prod.snd).length = N := by
    have h := congrArg List.length hd
    rw [List.length_map, chipKeys_length] at h
    rw [List.length_map]
    exact h
  have hrlen : rgb.length = N := by
    have h := congrArg List.length hr
    rw [List.length_map, chipKeys_length] at h
    exact h
  have hterms : ∀ t ∈ pyDedup (data.map Prod.snd),
      termMean data rgb t = some (specRow data rgb N t) :=
    fun t ht => termMean_spec data rgb N hd hr t ((pyDedup_mem _ t).1 ht)
  have htc : (pyDedup (data.map Prod.snd)).mapM
      (fun t => (termMean data rgb t).map (fun col => (t, col)))
      = some ((pyDedup (data.map Prod.snd)).map
          (fun t => (t, specRow data rgb N t))) :=
    mapM_map_of_some (termMean data rgb) (specRow data rgb N)
      (fun t col => (t, col)) _ hterms
  have hvalAt : ∀ i : Nat, i < N → ∃ t, alookup ((i : Int) + 1) data = some t ∧
      t ∈ pyDedup (data.map Prod.snd) := by
    intro i hi
    have hlt : i < (data.map Prod.snd).length := by omega
    refine ⟨(data.map Prod.snd).get ⟨i, hlt⟩, ?_, ?_⟩
    · rw [alookup_pos data N hd i hi]
      exact List.get?_eq_get hlt
    · exact (pyDedup_mem _ _).2 (List.get_mem _ _ hlt)
  have hsucc : ∀ i : Nat, i < N →
      ((alookup ((i : Int) + 1) data).bind
        (fun t => alookup t ((pyDedup (data.map Prod.snd)).map
          (fun t => (t, specRow data rgb N t))))).isSome := by
    intro i hi
    obtain ⟨t, hlook, hmem⟩ := hvalAt i hi
    rw [hlook, Option.some_bind, alookup_map_pair _ hmem]
    rfl
  obtain ⟨g, hg, hglen, hget⟩ :=
    gridFold_spec data
      ((pyDedup (data.map Prod.snd)).map (fun t => (t, specRow data rgb N t)))
      N hN hsucc (List.replicate 330 ((0 : ℚ), (0 : ℚ), (0 : ℚ)))
      (List.length_replicate _ _)
  have hmain : naming2grid data rgb = some g := by
    rw [naming2grid, htc, optBind_some, hrlen]
    exact hg
  refine ⟨g, hmain, hglen, ?_, ?_⟩
  · intro c hc1 hcN
    obtain ⟨t, hlook, hmem⟩ := hvalAt (c - 1) (by omega)
    have hcast : (((c - 1 : Nat) : Int)) + 1 = (c : Int) := by omega
    rw [hcast] at hlook
    refine ⟨t, hlook, ?_⟩
    rw [hget (c - 1), if_pos (by omega), hcast, hlook, Option.some_bind,
      alookup_map_pair _ hmem]
    rfl
  · intro j hjN hj330
    rw [hget j, if_neg (by omega)]
    have hjr : j < (List.replicate 330 ((0 : ℚ), (0 : ℚ), (0 : ℚ))).length := by
      rw [List.length_replicate]
      omega
    rw [List.get?_eq_get hjr, List.get_replicate]

/-- **C7, witness** for the amended theorem: two chips sharing term `a`,
with RGB values (0,0,0) and (255,255,255). -/
theorem naming2grid_amended_witness :
    ((2 : Nat) ≤ 330 ∧
        ([(1, "a"), (2, "a")] : Dict Int String).map Prod.fst = chipKeys 2 ∧
        ([(1, (0, 0, 0)), (2, (255, 255, 255))] : Dict Int (Int × Int × Int)).map Prod.fst
          = chipKeys 2) ∧
      ∃ g, naming2grid [(1, "a"), (2, "a")] [(1, (0, 0, 0)), (2, (255, 255, 255))]
            = some g ∧
        g.length = 330 ∧
        (∀ c : Nat, 1 ≤ c → c ≤ 2 →
          ∃ t, alookup (c : Int) ([(1, "a"), (2, "a")] : Dict Int String) = some t ∧
            g.get? (c - 1)
              = some (specRow [(1, "a"), (2, "a")] [(1, (0, 0, 0)), (2, (255, 255, 255))] 2 t)) ∧
        (∀ j : Nat, 2 ≤ j → j < 330 →
          g.get? j = some ((0 : ℚ), (0 : ℚ), (0 : ℚ))) :=
  ⟨⟨by decide, by decide, by decide⟩,
    naming2grid_amended 2 [(1, "a"), (2, "a")] [(1, (0, 0, 0)), (2, (255, 255, 255))]
      (by decide) (by decide) (by decide)⟩

/-! ## Claim C8: the layout of the plotted image (`_grid2img`) -/

theorem listIndex_some_of_mem :
    ∀ (l : List String) (x : String), x ∈ l →
      ∃ n, listIndex l x = some n ∧ n < l.length := by
  intro l
  induction l with
  | nil => intro x hx; simp at hx
  | cons y l ih =>
    intro x hx
    by_cases hy : y = x
    · exact ⟨0, by rw [listIndex, if_pos hy], by simp⟩
    · rcases List.mem_cons.1 hx with h | h
      · exact absurd h.symm hy
      · obtain ⟨n, hn, hlt⟩ := ih x h
        refine ⟨n + 1, ?_, by simp; omega⟩
        rw [listIndex, if_neg hy, hn]
        rfl

theorem imgSet_spec (img : List (List Row3)) (i : Nat) (j : Int) (v : Row3)
    (hlen : img.length = 10) (hrows : ∀ r ∈ img, r.length = 42)
    (hi : i < 10) (hj0 : 0 ≤ j) (hj42 : j < 42) :
    ∃ img', imgSet img i j v = some img' ∧ img'.length = 10 ∧
      (∀ r ∈ img', r.length = 42) ∧
      ∀ r c : Nat, imgCell img' r c
        = if r = i ∧ c = j.toNat then some v else imgCell img r c := by
  have hi' : i < img.length := by omega
  obtain ⟨row, hrow⟩ : ∃ row, img.get? i = some row :=
    ⟨img.get ⟨i, hi'⟩, List.get?_eq_get hi'⟩
  have hrowlen : row.length = 42 := hrows row (List.get?_mem hrow)
  have hcond : 0 ≤ j ∧ j < (row.length : Int) := by
    rw [hrowlen]
    exact ⟨hj0, by exact_mod_cast hj42⟩
  have hjn : j.toNat < 42 := by omega
  refine ⟨img.set i (row.set j.toNat v), ?_, ?_, ?_, ?_⟩
  · rw [imgSet, hrow, optBind_some, if_pos hcond, optBind_some]
  · rw [List.length_set]
    exact hlen
  · intro r hr
    rcases List.mem_or_eq_of_mem_set hr with h | h
    · exact hrows r h
    · rw [h, List.length_set]
      exact hrowlen
  · intro r c
    by_cases hri : r = i
    · subst hri
      have hset : (img.set r (row.set j.toNat v)).get? r = some (row.set j.toNat v) := by
        rw [List.get?_set_eq, hrow]
        rfl
      rw [imgCell, hset, Option.some_bind]
      by_cases hc : c = j.toNat
      · subst hc
        rw [if_pos ⟨rfl, rfl⟩]
        have hc' : j.toNat < row.length := by omega
        obtain ⟨w, hw⟩ : ∃ w, row.get? j.toNat = some w :=
          ⟨row.get ⟨j.toNat, hc'⟩, List.get?_eq_get hc'⟩
        rw [List.get?_set_eq, hw]
        rfl
      · rw [if_neg (fun hh => hc hh.2), List.get?_set_ne _ _ (fun hh => hc hh.symm),
          imgCell, hrow, Option.some_bind]
    · rw [if_neg (fun hh => hri hh.1), imgCell,
        List.get?_set_ne _ _ (fun hh => hri hh.symm), imgCell]

theorem grid2img_fold_spec (grid : List Row3) (ctm : Dict Int (String × Int))
    (h1 : ∀ k : Nat, k < grid.length → munsOk (alookup ((k : Int) + 1) ctm) = true)
    (hinj : ∀ k₁ k₂ : Nat, k₁ < grid.length → k₂ < grid.length →
      targetCell ctm k₁ = targetCell ctm k₂ → k₁ = k₂) :
    ∀ n : Nat, n ≤ grid.length →
      ∃ img, (List.range n).foldlM
          (fun img (k : Nat) => do
            let ij ← chip2ind ((k : Int) + 1) ctm
            let j : Int := if ij.2 > 0 then ij.2 + 1 else ij.2
            let row ← grid.get? k
            imgSet img ij.1 j row)
          (List.replicate 10 (List.replicate 42 ((1 : ℚ), (1 : ℚ), (1 : ℚ)))) = some img ∧
        img.length = 10 ∧ (∀ r ∈ img, r.length = 42) ∧
        (∀ k : Nat, k < n → ∀ rc : Nat × Nat, targetCell ctm k = some rc →
          imgCell img rc.1 rc.2 = grid.get? k) ∧
        (∀ r c : Nat, r < 10 → c < 42 →
          (∀ k : Nat, k < n → targetCell ctm k ≠ some (r, c)) →
          imgCell img r c = some ((1 : ℚ), (1 : ℚ), (1 : ℚ))) := by
  intro n
  induction n with
  | zero =>
    intro _
    refine ⟨_, rfl, by simp, ?_, ?_, ?_⟩
    · intro r hr
      rw [List.eq_of_mem_replicate hr, List.length_replicate]
    · intro k hk
      omega
    · intro r c hr hc _
      rw [imgCell]
      have hr10 : r < (List.replicate 10 (List.replicate 42
          ((1 : ℚ), (1 : ℚ), (1 : ℚ)))).length := by
        rw [List.length_replicate]
        omega
      rw [List.get?_eq_get hr10, List.get_replicate, Option.some_bind]
      have hc42 : c < (List.replicate 42 ((1 : ℚ), (1 : ℚ), (1 : ℚ))).length := by
        rw [List.length_replicate]
        omega
      rw [List.get?_eq_get hc42, List.get_replicate]
  | succ n ih =>
    intro hn
    obtain ⟨img, himg, hlen, hrows, hwritten, hwhite⟩ := ih (by omega)
    have hkn : n < grid.length := by omega
    have hok := h1 n hkn
    rcases hmun : alookup ((n : Int) + 1) ctm with _ | Lh
    · rw [hmun] at hok
      simp [munsOk] at hok
    rcases Lh with ⟨L, h⟩
    rw [hmun] at hok
    simp only [munsOk, Bool.and_eq_true, decide_eq_true_eq] at hok
    obtain ⟨⟨hLrows, hh0⟩, hh40⟩ := hok
    obtain ⟨ri, hri, hri10⟩ := listIndex_some_of_mem ROWS L hLrows
    have hri10' : ri < 10 := by
      have : ROWS.length = 10 := by decide
      omega
    have hchip : chip2ind ((n : Int) + 1) ctm = some (ri, h) := by
      rw [chip2ind, hmun, optBind_some, hri, optBind_some]
    have hj0 : (0 : Int) ≤ (if h > 0 then h + 1 else h) := by
      by_cases hpos : h > 0
      · rw [if_pos hpos]; omega
      · rw [if_neg hpos]; omega
    have hj42 : (if h > 0 then h + 1 else h) < 42 := by
      by_cases hpos : h > 0
      · rw [if_pos hpos]; omega
      · rw [if_neg hpos]; omega
    obtain ⟨rowv, hrowv⟩ : ∃ rowv, grid.get? n = some rowv :=
      ⟨grid.get ⟨n, hkn⟩, List.get?_eq_get hkn⟩
    obtain ⟨img', hset, hlen', hrows', hcells⟩ :=
      imgSet_spec img ri (if h > 0 then h + 1 else h) rowv hlen hrows hri10' hj0 hj42
    have htgt : targetCell ctm n = some (ri, (if h > 0 then h + 1 else h).toNat) := by
      rw [targetCell, hchip, optMap_some]
    refine ⟨img', ?_, hlen', hrows', ?_, ?_⟩
    · rw [List.range_succ, List.foldlM_append, himg, optBind_some, List.foldlM_cons,
        hchip, optBind_some, hrowv, optBind_some, hset, optBind_some, List.foldlM_nil]
      rfl
    · intro k hk rc hrc
      by_cases hkeq : k = n
      · subst hkeq
        rw [htgt] at hrc
        injection hrc with hrc'
        rw [← hrc']
        rw [hcells, if_pos ⟨rfl, rfl⟩, hrowv]
      · have hkn' : k < n := by omega
        have hne : rc ≠ (ri, (if h > 0 then h + 1 else h).toNat) := by
          intro hcon
          apply hkeq
          apply hinj k n (by omega) hkn
          rw [htgt, hrc, hcon]
        rw [hcells, if_neg ?_, hwritten k hkn' rc hrc]
        intro hcon
        apply hne
        rcases rc with ⟨r, c⟩
        simp only at hcon
        rw [hcon.1, hcon.2]
    · intro r c hr hc huntouched
      have hne : (r, c) ≠ (ri, (if h > 0 then h + 1 else h).toNat) := by
        intro hcon
        exact huntouched n (by omega) (by rw [htgt, hcon])
      rw [hcells, if_neg ?_, hwhite r c hr hc
        (fun k hk => huntouched k (by omega))]
      intro hcon
      apply hne
      rw [hcon.1, hcon.2]

/-- **C8.** For every grid of chip colors and chip-to-Munsell mapping
covering chips `1..len(grid)` with row letters in `A..J`, hues in
`0..40`, and pairwise distinct image targets, `_grid2img` builds a
10-row-by-42-column image in which every chip's color sits at
(index of its row letter in `A..J`, hue+1 if hue > 0 else 0), and every
cell not targeted by any chip is white `(1,1,1)`. -/
theorem grid2img_spec (grid : List Row3) (ctm : Dict Int (String × Int))
    (h1 : ∀ k : Nat, k < grid.length → munsOk (alookup ((k : Int) + 1) ctm) = true)
    (h2 : ((List.range grid.length).map (targetCell ctm)).Nodup) :
    ∃ img, grid2img grid ctm = some img ∧
      img.length = 10 ∧ (∀ r ∈ img, r.length = 42) ∧
      (∀ k : Nat, k < grid.length →
        ∀ L h, alookup ((k : Int) + 1) ctm = some (L, h) →
          ∃ ri, listIndex ROWS L = some ri ∧
            imgCell img ri (if h > 0 then h + 1 else h).toNat = grid.get? k) ∧
      (∀ r c : Nat, r < 10 → c < 42 →
        (∀ k : Nat, k < grid.length → targetCell ctm k ≠ some (r, c)) →
        imgCell img r c = some ((1 : ℚ), (1 : ℚ), (1 : ℚ))) := by
  have hinj : ∀ k₁ k₂ : Nat, k₁ < grid.length → k₂ < grid.length →
      targetCell ctm k₁ = targetCell ctm k₂ → k₁ = k₂ := by
    intro k₁ k₂ hk₁ hk₂ heq
    exact List.inj_on_of_nodup_map h2 (List.mem_range.2 hk₁) (List.mem_range.2 hk₂) heq
  obtain ⟨img, himg, hlen, hrows, hwritten, hwhite⟩ :=
    grid2img_fold_spec grid ctm h1 hinj grid.length (le_refl _)
  refine ⟨img, ?_, hlen, hrows, ?_, hwhite⟩
  · rw [grid2img]
    exact himg
  · intro k hk L h hmun
    have hok := h1 k hk
    rw [hmun] at hok
    simp only [munsOk, Bool.and_eq_true, decide_eq_true_eq] at hok
    obtain ⟨ri, hri, _⟩ := listIndex_some_of_mem ROWS L hok.1.1
    refine ⟨ri, hri, ?_⟩
    have htgt : targetCell ctm k = some (ri, (if h > 0 then h + 1 else h).toNat) := by
      rw [targetCell, chip2ind, hmun, optBind_some, hri, optBind_some, optMap_some]
    exact hwritten k hk _ htgt

/-- **C8, witness**: a two-chip grid; chip 1 on Munsell row `A` with hue 0
(goes to cell (0,0)), chip 2 on row `B` with hue 3 (goes to cell (1,4)). -/
theorem grid2img_spec_witness :
    ((∀ k : Nat, k < ([((0 : ℚ), (0 : ℚ), (0 : ℚ)), ((1 : ℚ), (1 : ℚ), (0 : ℚ))] : List Row3).length →
        munsOk (alookup ((k : Int) + 1)
          ([(1, ("A", 0)), (2, ("B", 3))] : Dict Int (String × Int))) = true) ∧
      ((List.range ([((0 : ℚ), (0 : ℚ), (0 : ℚ)), ((1 : ℚ), (1 : ℚ), (0 : ℚ))] : List Row3).length).map
        (targetCell ([(1, ("A", 0)), (2, ("B", 3))] : Dict Int (String × Int)))).Nodup) ∧
      ∃ img, grid2img [((0 : ℚ), (0 : ℚ), (0 : ℚ)), ((1 : ℚ), (1 : ℚ), (0 : ℚ))]
            [(1, ("A", 0)), (2, ("B", 3))] = some img ∧
        img.length = 10 ∧ (∀ r ∈ img, r.length = 42) ∧
        (∀ k : Nat, k < ([((0 : ℚ), (0 : ℚ), (0 : ℚ)), ((1 : ℚ), (1 : ℚ), (0 : ℚ))] : List Row3).length →
          ∀ L h, alookup ((k : Int) + 1)
              ([(1, ("A", 0)), (2, ("B", 3))] : Dict Int (String × Int)) = some (L, h) →
            ∃ ri, listIndex ROWS L = some ri ∧
              imgCell img ri (if h > 0 then h + 1 else h).toNat
                = ([((0 : ℚ), (0 : ℚ), (0 : ℚ)), ((1 : ℚ), (1 : ℚ), (0 : ℚ))] : List Row3).get? k) ∧
        (∀ r c : Nat, r < 10 → c < 42 →
          (∀ k : Nat, k < ([((0 : ℚ), (0 : ℚ), (0 : ℚ)), ((1 : ℚ), (1 : ℚ), (0 : ℚ))] : List Row3).length →
            targetCell ([(1, ("A", 0)), (2, ("B", 3))] : Dict Int (String × Int)) k ≠ some (r, c)) →
          imgCell img r c = some ((1 : ℚ), (1 : ℚ), (1 : ℚ))) :=
  ⟨⟨by decide, by decide⟩,
    grid2img_spec [((0 : ℚ), (0 : ℚ), (0 : ℚ)), ((1 : ℚ), (1 : ℚ), (0 : ℚ))]
      [(1, ("A", 0)), (2, ("B", 3))] (by decide) (by decide)⟩

end WCS
